import Mathlib

/-!
Verification development for the letter-tracing mini-game.

The definitions below are a shallow embedding of the repository's core:
the letter geometry table (`constants` module), the `TracingCard`
tracing-surface component (session state machine, ink surface,
hit-testing, interpolation, stroke completion, reset), and the
orchestrator's penalty/star logic (`App`).

Conventions of the embedding:
* JavaScript numbers are modelled as exact rationals (`ℚ`); every
  comparison the code performs on a square root (`Math.hypot`) is
  modelled on the squared quantities, which is equivalent for
  non-negative thresholds.
* React `useState` updates are modelled as immediate state updates of a
  `Session` record; each event handler is a function from session to
  session (handlers run to completion before the next event, matching
  the single-threaded event model).
* A JavaScript `TypeError` raised by dereferencing `undefined` is
  modelled with `Except JsErr`; guards are evaluated in the source's
  short-circuit order so that an error is raised exactly where the
  source would raise one.
* The raster ink canvas is modelled as its allocation dimensions plus
  the list of paint operations applied since it was last cleared
  (`clearRect` over the full surface = empty operation list).
-/

/-- Point in the normalized 0-100 letter coordinate space (`types.ts`). -/
structure Point where
  x : ℚ
  y : ℚ
deriving DecidableEq

/-- Parsed content of an SVG path descriptor string as used by the
geometry table; the table only contains the two command shapes
`M x1 y1 L x2 y2` (a line) and `M x1 y1 A rx ry xrot large sweep x2 y2`
(an elliptic arc).  A `Path2D` built from such a string is exactly this
data, so the embedding stores the parsed form. -/
inductive PathDesc where
  | line (x1 y1 x2 y2 : ℚ)
  | arc (x1 y1 rx ry xrot : ℚ) (largeArc sweep : Bool) (x2 y2 : ℚ)
deriving DecidableEq

/-- One stroke of a letter (`types.ts`); the source field `end` is a Lean
keyword and is rendered `endPt` here. -/
structure Stroke where
  path : PathDesc
  start : Point
  endPt : Point
  arrowRot : ℚ
deriving DecidableEq

/-- Geometry of one letter (`types.ts`), a list of strokes plus the
viewBox (kept as a pair of rationals). -/
structure LetterPathConfig where
  strokes : List Stroke
  viewBox : ℚ × ℚ
deriving DecidableEq

/-- Geometry of the letter `A` from `LETTER_PATHS` in the constants
module: three line strokes. -/
def lettersConfigA : LetterPathConfig :=
  { strokes :=
      [ { path := .line 50 15 20 85, start := ⟨50, 15⟩, endPt := ⟨20, 85⟩, arrowRot := 115 }
      , { path := .line 50 15 80 85, start := ⟨50, 15⟩, endPt := ⟨80, 85⟩, arrowRot := 65 }
      , { path := .line 30 60 70 60, start := ⟨30, 60⟩, endPt := ⟨70, 60⟩, arrowRot := 0 } ]
  , viewBox := (100, 100) }

/-- Geometry of the letter `a` from `LETTER_PATHS`: an arc stroke and a
line stroke. -/
def lettersConfigLowerA : LetterPathConfig :=
  { strokes :=
      [ { path := .arc 70 45 20 20 0 true false 70 75, start := ⟨70, 45⟩, endPt := ⟨70, 75⟩, arrowRot := -45 }
      , { path := .line 70 40 70 85, start := ⟨70, 40⟩, endPt := ⟨70, 85⟩, arrowRot := 90 } ]
  , viewBox := (100, 100) }

/-- The geometry table `LETTER_PATHS : Record<string, LetterPathConfig>`;
indexing a JS record at a missing key yields `undefined`, modelled as
`none`. -/
def LETTER_PATHS (letter : String) : Option LetterPathConfig :=
  if letter = "A" then some lettersConfigA
  else if letter = "a" then some lettersConfigLowerA
  else none

/-- Line segment in the 0-100 letter space, the geometric content of a
`Path2D` built from a descriptor of the shape `M x1 y1 L x2 y2`. -/
structure Seg where
  a : Point
  b : Point
deriving DecidableEq

/-- Reads a line path descriptor (all the straight strokes of the
geometry table) as a line segment; the arc descriptor of letter `a`
yields `none`. -/
def segOfPath : PathDesc → Option Seg
  | .line x1 y1 x2 y2 => some ⟨⟨x1, y1⟩, ⟨x2, y2⟩⟩
  | .arc _ _ _ _ _ _ _ _ _ => none

/-- Squared Euclidean distance between two coordinate pairs; the code
compares `Math.hypot` outputs against non-negative thresholds, which is
equivalent to comparing these squares against the squared thresholds. -/
def distSq (p q : ℚ × ℚ) : ℚ := (p.1 - q.1) ^ 2 + (p.2 - q.2) ^ 2

/-- Squared distance from a point to a line segment (clamped projection,
written division-free except in the interior branch). -/
def distSqToSeg (p : ℚ × ℚ) (s : Seg) : ℚ :=
  let dx := s.b.x - s.a.x
  let dy := s.b.y - s.a.y
  let rx := p.1 - s.a.x
  let ry := p.2 - s.a.y
  let den := dx ^ 2 + dy ^ 2
  let dot := rx * dx + ry * dy
  if den = 0 then rx ^ 2 + ry ^ 2
  else if dot ≤ 0 then rx ^ 2 + ry ^ 2
  else if den ≤ dot then (p.1 - s.b.x) ^ 2 + (p.2 - s.b.y) ^ 2
  else (rx * dy - ry * dx) ^ 2 / den

/-- The point of a segment closest to `p` (the clamped projection); the
value of `distSqToSeg` is the squared distance to this point. -/
def segClosest (p : ℚ × ℚ) (s : Seg) : ℚ × ℚ :=
  let dx := s.b.x - s.a.x
  let dy := s.b.y - s.a.y
  let rx := p.1 - s.a.x
  let ry := p.2 - s.a.y
  let den := dx ^ 2 + dy ^ 2
  let dot := rx * dx + ry * dy
  if den = 0 then (s.a.x, s.a.y)
  else if dot ≤ 0 then (s.a.x, s.a.y)
  else if den ≤ dot then (s.b.x, s.b.y)
  else (s.a.x + dot / den * dx, s.a.y + dot / den * dy)

/-!
Exact arithmetic for the circular arc of the geometry table.  The SVG
endpoint-to-center conversion puts the arc's center at
`midpoint + sg * sqrt q * (-Dy, Dx)` where `q = r^2/L^2 - 1/4` is
rational but `sqrt q` in general is not, so every quantity the arc hit
test compares lives in the field extension by `sqrt q`.  A number
`a + b * sqrt q` is represented by the pair `(a, b)`; `sNonneg` decides
its sign by case analysis and squaring, which is exact.
-/

/-- Addition of surd pairs (`(a, b)` denotes `a + b * sqrt q`). -/
def sAdd (u v : ℚ × ℚ) : ℚ × ℚ := (u.1 + v.1, u.2 + v.2)

/-- Subtraction of surd pairs. -/
def sSub (u v : ℚ × ℚ) : ℚ × ℚ := (u.1 - v.1, u.2 - v.2)

/-- Multiplication of surd pairs over the extension by `sqrt q`. -/
def sMul (q : ℚ) (u v : ℚ × ℚ) : ℚ × ℚ :=
  (u.1 * v.1 + u.2 * v.2 * q, u.1 * v.2 + u.2 * v.1)

/-- A rational number as a surd pair. -/
def sOfQ (a : ℚ) : ℚ × ℚ := (a, 0)

/-- Exact sign test: whether `a + b * sqrt q` is non-negative (for
`0 ≤ q`), decided by squaring. -/
def sNonneg (q : ℚ) (u : ℚ × ℚ) : Bool :=
  if 0 ≤ u.2 then decide (0 ≤ u.1) || decide (u.1 ^ 2 ≤ u.2 ^ 2 * q)
  else decide (0 ≤ u.1) && decide (u.2 ^ 2 * q ≤ u.1 ^ 2)

/-- The real value denoted by a surd pair.  This is specification-side
semantics (used only in theorem statements and proofs), not part of the
code translation. -/
noncomputable def sVal (q : ℚ) (u : ℚ × ℚ) : ℝ :=
  (u.1 : ℝ) + (u.2 : ℝ) * Real.sqrt (q : ℝ)

/-- Cross product of two plane vectors whose coordinates are surd pairs. -/
def sCross (q : ℚ) (ux uy vx vy : ℚ × ℚ) : ℚ × ℚ :=
  sSub (sMul q ux vy) (sMul q uy vx)

/-- A circular arc of the geometry table in center form: endpoints,
radius, the surd scale `q = r^2/L^2 - 1/4`, the center's coordinates as
surd pairs, and the sweep flag. -/
structure ArcGeom where
  x1 : ℚ
  y1 : ℚ
  x2 : ℚ
  y2 : ℚ
  r : ℚ
  q : ℚ
  cx : ℚ × ℚ
  cy : ℚ × ℚ
  sweep : Bool
deriving DecidableEq

/-- SVG endpoint-to-center conversion for a circular arc descriptor
(rx = ry): center `= midpoint + sg * sqrt q * (-Dy, Dx)` with
`sg = +1` when the large-arc and sweep flags differ, `-1` when they
agree.  Descriptors that are not valid circular arcs (elliptic
`rx ≠ ry`, coincident endpoints, or a radius smaller than half the
chord, which SVG would first rescale) yield `none`; no such descriptor
occurs in the geometry table. -/
def arcOfPath : PathDesc → Option ArcGeom
  | .arc ax ay rx ry _xrot fa fs bx bby =>
      let dx := bx - ax
      let dy := bby - ay
      let l2 := dx ^ 2 + dy ^ 2
      if rx = ry ∧ 0 < rx ∧ l2 ≠ 0 ∧ l2 ≤ 4 * rx ^ 2 then
        some { x1 := ax, y1 := ay, x2 := bx, y2 := bby, r := rx
             , q := rx ^ 2 / l2 - 1/4
             , cx := ((ax + bx) / 2, -(if fa = fs then -1 else 1) * dy)
             , cy := ((ay + bby) / 2, (if fa = fs then -1 else 1) * dx)
             , sweep := fs }
      else none
  | _ => none

/-- The displacement of a point from the arc's center, x-coordinate, as
a surd pair. -/
def arcVx (A : ArcGeom) (px : ℚ) : ℚ × ℚ := sSub (sOfQ px) A.cx

/-- The displacement of a point from the arc's center, y-coordinate. -/
def arcVy (A : ArcGeom) (py : ℚ) : ℚ × ℚ := sSub (sOfQ py) A.cy

/-- Surd representation of the squared distance from a point to the
arc's center. -/
def arcNormSq (A : ArcGeom) (p : ℚ × ℚ) : ℚ × ℚ :=
  sAdd (sMul A.q (arcVx A p.1) (arcVx A p.1)) (sMul A.q (arcVy A p.2) (arcVy A p.2))

/-- Whether the point lies in the annulus of half-width 12 around the
arc's support circle: `|p-c|` between `r - 12` (vacuous when `r ≤ 12`)
and `r + 12`, compared on squares. -/
def arcBand (A : ArcGeom) (p : ℚ × ℚ) : Bool :=
  sNonneg A.q (sSub (sOfQ ((A.r + 12) ^ 2)) (arcNormSq A p)) &&
  (decide (A.r ≤ 12) || sNonneg A.q (sSub (arcNormSq A p) (sOfQ ((A.r - 12) ^ 2))))

/-- Whether the direction from the center to the point lies in the
arc's angular span, by cross-product sign tests: the span runs
counterclockwise from `es` to `ee` (the endpoints ordered by the sweep
flag); when the span is at most a half turn both boundary crosses must
be non-negative, otherwise one suffices. -/
def arcSector (A : ArcGeom) (p : ℚ × ℚ) : Bool :=
  let e1x := sSub (sOfQ A.x1) A.cx
  let e1y := sSub (sOfQ A.y1) A.cy
  let e2x := sSub (sOfQ A.x2) A.cx
  let e2y := sSub (sOfQ A.y2) A.cy
  let esx := if A.sweep then e1x else e2x
  let esy := if A.sweep then e1y else e2y
  let eex := if A.sweep then e2x else e1x
  let eey := if A.sweep then e2y else e1y
  let vx := arcVx A p.1
  let vy := arcVy A p.2
  if sNonneg A.q (sCross A.q esx esy eex eey) then
    sNonneg A.q (sCross A.q esx esy vx vy) && sNonneg A.q (sCross A.q vx vy eex eey)
  else
    sNonneg A.q (sCross A.q esx esy vx vy) || sNonneg A.q (sCross A.q vx vy eex eey)

/-- Whether a point is within 12 of the arc: inside the annulus and the
angular span, or within 12 of an endpoint (the cap shape at the arc's
open ends is immaterial to the properties proved about it, which concern
points exactly on the arc and points beyond the half-width). -/
def arcHit (A : ArcGeom) (p : ℚ × ℚ) : Bool :=
  (arcBand A p && arcSector A p) ||
  decide ((p.1 - A.x1) ^ 2 + (p.2 - A.y1) ^ 2 ≤ 144) ||
  decide ((p.1 - A.x2) ^ 2 + (p.2 - A.y2) ^ 2 ≤ 144)

/-- The hit test in the path's user space (the normalized 0-100 letter
space): whether the point lies in the stroked band of half-width 12
(half of `lineWidth 24`) around the path, for a line segment via the
point-to-segment distance and for a circular arc via the exact surd
tests.  The band is modelled as the set of points within distance 12 of
the curve; as for segments, the cap shape at the curve's ends is
immaterial to the properties proved here. -/
def hitPathN (pd : PathDesc) (p : ℚ × ℚ) : Bool :=
  match segOfPath pd with
  | some seg => decide (distSqToSeg p seg ≤ 144)
  | none =>
      match arcOfPath pd with
      | some A => arcHit A p
      | none => false

/-- The hit test of `draw` (part_001 lines 502-513): the context is
scaled by `((w*dpr)/100, (h*dpr)/100)`, `lineWidth` is set to 24, and
`isPointInStroke(path2d, x*dpr, y*dpr)` is queried.  `isPointInStroke`
inverse-transforms the queried point into the path's user space (the
normalized 0-100 letter space) and tests it against the stroked band of
half-width 12 around the path there (`hitPathN`). -/
def hitTest (w h dpr : ℚ) (pd : PathDesc) (x y : ℚ) : Bool :=
  hitPathN pd (x * dpr / (w * dpr / 100), y * dpr / (h * dpr / 100))

/-- Linear interpolation helper of `TracingCard` (part_001 lines 459-461). -/
def lerp (a b t : ℚ) : ℚ := a * (1 - t) + b * t

/-- The sample points tested by one `draw` call (part_001 lines 497-500):
`steps + 1` points, the i-th at parameter `i / steps` between the last
and the current pointer position (`t = 1` when `steps = 0`). -/
def samplePoints (lx ly cx cy : ℚ) (steps : ℕ) : List (ℚ × ℚ) :=
  (List.range (steps + 1)).map fun i : ℕ =>
    let t : ℚ := if steps = 0 then 1 else (i : ℚ) / steps
    (lerp lx cx t, lerp ly cy t)

/-- Characterization of `steps = Math.ceil(dist / 2)` (part_001 line 493)
on the squared distance: `n` is the least natural with `dist ≤ 2 * n`,
i.e. `distSq ≤ 4 * n ^ 2` and, unless `n = 0`, `4 * (n - 1) ^ 2 < distSq`. -/
def stepsRel (dsq : ℚ) (n : ℕ) : Prop :=
  dsq ≤ 4 * (n : ℚ) ^ 2 ∧ (n = 0 ∨ 4 * ((n : ℚ) - 1) ^ 2 < dsq)

instance (dsq : ℚ) (n : ℕ) : Decidable (stepsRel dsq n) := by
  unfold stepsRel; infer_instance

/-- The subset of the sample points of one `draw` call that pass the hit
test against the active stroke's path (part_001 lines 512-520); only the
active stroke's path is ever consulted, whether it is a line or the arc
of letter `a`. -/
def inkedSamples (w h dpr : ℚ) (pathStr : PathDesc) (pts : List (ℚ × ℚ)) : List (ℚ × ℚ) :=
  pts.filter fun p => hitTest w h dpr pathStr p.1 p.2

/-- One paint operation recorded on the ink canvas: a stamped brush
circle (part_001 lines 517-519) or the forced re-stroke of a completed
stroke's exact path (part_001 lines 564-575; line width 16, scaling to
the physical surface omitted as pure rendering detail). -/
inductive InkOp where
  | stamp (x y r : ℚ)
  | fillStroke (path : PathDesc)
deriving DecidableEq

/-- The off-screen ink canvas: its allocation dimensions in physical
(device) pixels and the paint operations applied since the last clear. -/
structure InkSurface where
  width : ℚ
  height : ℚ
  ops : List InkOp
deriving DecidableEq

/-- A JavaScript runtime error; the only kind the modelled code can
raise is a `TypeError` from dereferencing `undefined`. -/
inductive JsErr where
  | typeError
deriving DecidableEq

/-- The per-letter tracing session of `TracingCard`: the three `useState`
cells (part_001 lines 229-231) plus the mutable refs `isDrawingRef`,
`lastPosRef` and `inkCanvasRef` (`none` = not yet allocated). -/
structure Session where
  activeStrokeIdx : ℕ
  mistakes : ℕ
  successTriggered : Bool
  isDrawing : Bool
  lastPos : Option (ℚ × ℚ)
  ink : Option InkSurface
deriving DecidableEq

/-- The state of a freshly mounted `TracingCard` (part_001 lines 225-235):
all counters zero, no capture, ink canvas not yet allocated. -/
def initialSession : Session :=
  { activeStrokeIdx := 0, mistakes := 0, successTriggered := false
  , isDrawing := false, lastPos := none, ink := none }

/-- The ink-canvas part of `initCanvas` (part_001 lines 251-284): a no-op
when the letter has no geometry (guard line 254); otherwise the ink
canvas is (re)allocated blank at `width*dpr × height*dpr` exactly when
its current physical dimensions differ (lines 267-282), and is left
untouched when they already match. -/
def initCanvas (cfg : Option LetterPathConfig) (w h dpr : ℚ)
    (ink : Option InkSurface) : Option InkSurface :=
  match cfg with
  | none => ink
  | some _ =>
      match ink with
      | none => some { width := w * dpr, height := h * dpr, ops := [] }
      | some i =>
          if i.width = w * dpr ∧ i.height = h * dpr then some i
          else some { width := w * dpr, height := h * dpr, ops := [] }

/-- Abstraction of one render pass (part_001 lines 288-398): the gray
tracks drawn for every stroke and the guide data of the active stroke
(dashed path, start marker, end arrow), `none` when the active stroke
index is out of range.  The pass declines to run (`none`) when the
letter has no geometry (guard line 290). -/
structure RenderPass where
  tracks : List PathDesc
  activeGuide : Option (PathDesc × Point × Point)
deriving DecidableEq

/-- `renderFrame` of part_001: no-op for a missing letter config,
otherwise the layered pass described by `RenderPass`. -/
def renderFrame (cfg : Option LetterPathConfig) (s : Session) : Option RenderPass :=
  match cfg with
  | none => none
  | some c =>
      some { tracks := c.strokes.map (·.path)
           , activeGuide := (c.strokes[s.activeStrokeIdx]?).map
               fun st => (st.path, st.start, st.endPt) }

/-- The CSS custom-property bundle `getHandStyle` computes for the hand
animation (part_001 lines 614-624); `none` models `display: none`. -/
structure HandStyle where
  startPt : Point
  endPt : Point
deriving DecidableEq

/-- `getHandStyle` (part_001 lines 614-624).  Its first condition reads
`letterConfig.strokes.length` before anything else, so a missing letter
config raises a `TypeError` (there is no guard). -/
def getHandStyle (cfg : Option LetterPathConfig) (s : Session) :
    Except JsErr (Option HandStyle) :=
  match cfg with
  | none => .error .typeError
  | some c =>
      if c.strokes.length ≤ s.activeStrokeIdx || s.successTriggered then .ok none
      else
        match c.strokes[s.activeStrokeIdx]? with
        | some st => .ok (some { startPt := st.start, endPt := st.endPt })
        | none => .ok none

/-- The forced fill of the just-completed stroke's exact path on the ink
canvas (part_001 lines 554-577); a no-op when the ink canvas is absent
(guard `if (inkCanvas)`). -/
def inkFillStroke (c : LetterPathConfig) (s : Session) : Option InkSurface :=
  match s.ink, c.strokes[s.activeStrokeIdx]? with
  | some ink, some st => some { ink with ops := ink.ops ++ [InkOp.fillStroke st.path] }
  | _, _ => s.ink

/-- `completeStroke` (part_001 lines 539-587): guard on the index, halt
the capture, force-fill the just-completed stroke's exact path on the
ink canvas, advance the index, and on full completion set
`successTriggered` and fire `onSuccess(mistakes > 0)` (through
`handleFullSuccess`, lines 594-597).  The emitted callback argument is
returned as `some hadPenalty`. -/
def completeStroke (c : LetterPathConfig) (s : Session) : Session × Option Bool :=
  if c.strokes.length ≤ s.activeStrokeIdx then (s, none)
  else if c.strokes.length ≤ s.activeStrokeIdx + 1 then
    ({ s with isDrawing := false, lastPos := none, ink := inkFillStroke c s
            , activeStrokeIdx := s.activeStrokeIdx + 1, successTriggered := true }
    , some (decide (0 < s.mistakes)))
  else
    ({ s with isDrawing := false, lastPos := none, ink := inkFillStroke c s
            , activeStrokeIdx := s.activeStrokeIdx + 1 }
    , none)

/-- The end-proximity predicate of `draw` (part_001 lines 526-534): the
raw current point is strictly closer than `w * 0.08` to the active
stroke's declared end point, compared on squares. -/
def nearEnd (w h : ℚ) (cur : ℚ × ℚ) (st : Stroke) : Bool :=
  decide (distSq cur (st.endPt.x / 100 * w, st.endPt.y / 100 * h) < (8 * w / 100) ^ 2)

/-- The state mutation of one `draw` call before the completion check
(part_001 lines 489-524): interpolate samples from the previous raw
point (falling back to the current one when no previous position is
recorded), stamp the in-band samples with brush radius `w * 0.065` on
the ink canvas, and record the current point as the last position. -/
def drawUpdate (w h dpr : ℚ) (steps : ℕ) (cur : ℚ × ℚ) (st : Stroke)
    (ink : InkSurface) (s : Session) : Session :=
  let last := s.lastPos.getD cur
  let pts := samplePoints last.1 last.2 cur.1 cur.2 steps
  let stamps := (inkedSamples w h dpr st.path pts).map
    (fun p => InkOp.stamp p.1 p.2 (13 * w / 200))
  { s with lastPos := some cur, ink := some { ink with ops := ink.ops ++ stamps } }

/-- `draw` (part_001 lines 463-537).  Guard order follows the source:
the capture/active/success guard (line 464), the canvas guards
(line 468, modelled by the allocated-ink check), then the dereference of
`letterConfig.strokes[activeStrokeIdx].path` (lines 485-486), which
raises a `TypeError` when the config is missing or the index is out of
range.  Then apply `drawUpdate` and complete the stroke exactly when the
raw current point is near the active stroke's declared end point. -/
def draw (cfg : Option LetterPathConfig) (isActive : Bool) (w h dpr : ℚ)
    (steps : ℕ) (cur : ℚ × ℚ) (s : Session) : Except JsErr (Session × Option Bool) :=
  if !s.isDrawing || !isActive || s.successTriggered then .ok (s, none)
  else
    match s.ink with
    | none => .ok (s, none)
    | some ink =>
        match cfg with
        | none => .error .typeError
        | some c =>
            match c.strokes[s.activeStrokeIdx]? with
            | none => .error .typeError
            | some st =>
                if nearEnd w h cur st then
                  .ok (completeStroke c (drawUpdate w h dpr steps cur st ink s))
                else .ok (drawUpdate w h dpr steps cur st ink s, none)

/-- `startDrawing` (part_001 lines 433-456).  The guard disjunction is
evaluated left to right as in the source, so the dereference of
`letterConfig.strokes.length` (and with it the `TypeError` for a missing
config) only happens once `isActive` holds and success has not yet been
triggered.  On success of the guard the capture starts, the last
position is set to the current point, and `draw` runs on the same event
(zero distance, hence zero interpolation steps). -/
def startDrawing (cfg : Option LetterPathConfig) (isActive : Bool) (w h dpr : ℚ)
    (cur : ℚ × ℚ) (s : Session) : Except JsErr (Session × Option Bool) :=
  if !isActive then .ok (s, none)
  else if s.successTriggered then .ok (s, none)
  else
    match cfg with
    | none => .error .typeError
    | some c =>
        if c.strokes.length ≤ s.activeStrokeIdx then .ok (s, none)
        else draw cfg isActive w h dpr 0 cur { s with isDrawing := true, lastPos := some cur }

/-- `stopDrawing`, the pointer-up/leave handler (part_001 lines 589-592). -/
def stopDrawing (s : Session) : Session :=
  { s with isDrawing := false, lastPos := none }

/-- `handleReset` (part_001 lines 599-611): increment the mistake
counter, zero the stroke index, clear the success flag, and clear the
ink canvas (full-surface `clearRect`; dimensions are kept). -/
def handleReset (s : Session) : Session :=
  { s with mistakes := s.mistakes + 1, activeStrokeIdx := 0, successTriggered := false
         , ink := s.ink.map fun i => { i with ops := [] } }

/-- The reset button's enabled state (part_001 line 684:
`disabled={!isActive || successTriggered}`). -/
def resetEnabled (isActive : Bool) (s : Session) : Bool :=
  isActive && !s.successTriggered

/-- A click on the reset button: `handleReset` when enabled, otherwise a
disabled button swallows the click. -/
def resetClick (isActive : Bool) (s : Session) : Session :=
  if resetEnabled isActive s then handleReset s else s

/-- The letter-change effect (part_001 lines 401-417): zero the three
state cells and clear the ink canvas (dimensions kept, like any
full-surface `clearRect`). -/
def letterChange (s : Session) : Session :=
  { s with activeStrokeIdx := 0, mistakes := 0, successTriggered := false
         , ink := s.ink.map fun i => { i with ops := [] } }

/-- The events the tracing surface reacts to.  `pointerMove` carries the
interpolation step count the source computes as `Math.ceil(dist / 2)`
(constrained by `stepsRel` in the theorems that depend on it). -/
inductive Ev where
  | pointerDown (isActive : Bool) (w h dpr : ℚ) (pos : ℚ × ℚ)
  | pointerMove (isActive : Bool) (w h dpr : ℚ) (steps : ℕ) (pos : ℚ × ℚ)
  | pointerUp
  | pointerLeave
  | resetClick (isActive : Bool)
  | letterChange
  | resize (w h dpr : ℚ)
deriving DecidableEq

/-- One step of the tracing surface: dispatch an event to its handler.
The second component of the result is the `onSuccess` emission of the
step (`some hadPenalty` exactly when the callback fired). -/
def step (cfg : Option LetterPathConfig) (e : Ev) (s : Session) :
    Except JsErr (Session × Option Bool) :=
  match e with
  | .pointerDown a w h dpr pos => startDrawing cfg a w h dpr pos s
  | .pointerMove a w h dpr n pos => draw cfg a w h dpr n pos s
  | .pointerUp => .ok (stopDrawing s, none)
  | .pointerLeave => .ok (stopDrawing s, none)
  | .resetClick a => .ok (resetClick a s, none)
  | .letterChange => .ok (letterChange s, none)
  | .resize w h dpr => .ok ({ s with ink := initCanvas cfg w h dpr s.ink }, none)

/-- The session states reachable from a fresh mount by non-crashing
event steps. -/
inductive Reachable (cfg : Option LetterPathConfig) : Session → Prop where
  | init : Reachable cfg initialSession
  | next : ∀ e s s1 r, Reachable cfg s → step cfg e s = .ok (s1, r) → Reachable cfg s1

/-- Penalty update of `handleLevelSuccess` (App.tsx lines 56-60): one
penalty per level whose success callback reported `hadPenalty`. -/
def handleLevelSuccessPenalties (penalties : ℕ) (hadPenalty : Bool) : ℕ :=
  if hadPenalty then penalties + 1 else penalties

/-- Star computation of `finishGame` (App.tsx lines 109-120), the
sequential reassignments embedded verbatim. -/
def finishStars (penalties : ℕ) : ℕ :=
  let s1 := 3
  let s2 := if 1 ≤ penalties then 2 else s1
  let s3 := if 3 ≤ penalties then 1 else s2
  if 5 < penalties then 0 else s3

/-- The orchestrator's level run including the closure semantics of
`handleLevelSuccess` (App.tsx lines 56-107): the handler and the
`finishGame` it schedules are created afresh each render and close over
the `penalties` value of that render.  When a level completes, the
captured value is the state accumulated through the previous levels
(state transitions and the 3-second timer force a re-render between
levels); the handler then updates the state functionally
(`setPenalties(prev => prev + 1)`), but on the last level `finishGame`
(App.tsx lines 109-120) runs inside the scheduled timeout and computes
the stars from the CAPTURED pre-update value, so the final level's
penalty never reaches the star computation.  The first argument is the
penalties state at the start of the remaining levels; the list holds
each remaining level's `hadPenalty` flag.  The empty-list base case is
unreachable (the level script is non-empty). -/
def runGame : ℕ → List Bool → ℕ
  | pState, [] => finishStars pState
  | pState, hadPenalty :: rest =>
      if rest.isEmpty then finishStars pState
      else runGame (handleLevelSuccessPenalties pState hadPenalty) rest

/-- The penalties state after a sequence of levels (each completed level
applies `handleLevelSuccessPenalties` to the state). -/
def foldPenalties (p : ℕ) (flags : List Bool) : ℕ :=
  flags.foldl handleLevelSuccessPenalties p

/-!
Specification-side real geometry for the hit-test claims: the point set
of a path descriptor in the normalized 0-100 space, over the reals.
These definitions interpret the claim's geometric language ("exactly on
the path", "at distance at least 12") and are used only in theorem
statements and proofs, never by the code translation.
-/

/-- The point `z` lies on the segment (real parametrization). -/
def onSegR (s : Seg) (z : ℝ × ℝ) : Prop :=
  ∃ t : ℝ, 0 ≤ t ∧ t ≤ 1 ∧
    z.1 = (s.a.x : ℝ) + t * ((s.b.x : ℝ) - (s.a.x : ℝ)) ∧
    z.2 = (s.a.y : ℝ) + t * ((s.b.y : ℝ) - (s.a.y : ℝ))

/-- The direction `(vx, vy)` lies in the counterclockwise angular span
from `(ex, ey)` to `(fx, fy)`, by cross-product sign conditions: when
the span is at most a half turn both boundary crosses must be
non-negative, otherwise one suffices. -/
def sectorCond (ex ey fx fy vx vy : ℝ) : Prop :=
  (0 ≤ ex * fy - ey * fx → (0 ≤ ex * vy - ey * vx ∧ 0 ≤ vx * fy - vy * fx)) ∧
  (ex * fy - ey * fx < 0 → (0 ≤ ex * vy - ey * vx ∨ 0 ≤ vx * fy - vy * fx))

/-- The direction `v` (measured from the arc's center) lies in the
arc's angular span, by the same cross-product sign conditions as
`arcSector`, over the reals. -/
def sectorR (A : ArcGeom) (v : ℝ × ℝ) : Prop :=
  if A.sweep then
    sectorCond ((A.x1 : ℝ) - sVal A.q A.cx) ((A.y1 : ℝ) - sVal A.q A.cy)
      ((A.x2 : ℝ) - sVal A.q A.cx) ((A.y2 : ℝ) - sVal A.q A.cy) v.1 v.2
  else
    sectorCond ((A.x2 : ℝ) - sVal A.q A.cx) ((A.y2 : ℝ) - sVal A.q A.cy)
      ((A.x1 : ℝ) - sVal A.q A.cx) ((A.y1 : ℝ) - sVal A.q A.cy) v.1 v.2

/-- The point `z` lies on the arc: on the support circle and within the
angular span. -/
def onArcR (A : ArcGeom) (z : ℝ × ℝ) : Prop :=
  (z.1 - sVal A.q A.cx) ^ 2 + (z.2 - sVal A.q A.cy) ^ 2 = (A.r : ℝ) ^ 2 ∧
  sectorR A (z.1 - sVal A.q A.cx, z.2 - sVal A.q A.cy)

/-- The point `z` lies exactly on the path described by `pd`. -/
def onPathR (pd : PathDesc) (z : ℝ × ℝ) : Prop :=
  match segOfPath pd with
  | some seg => onSegR seg z
  | none =>
      match arcOfPath pd with
      | some A => onArcR A z
      | none => False

/-- Some point of the path lies within distance `d` of `p`. -/
def withinOfPathR (d : ℝ) (pd : PathDesc) (p : ℝ × ℝ) : Prop :=
  ∃ z : ℝ × ℝ, onPathR pd z ∧ (p.1 - z.1) ^ 2 + (p.2 - z.2) ^ 2 ≤ d ^ 2

/-- The center form of the arc stroke of letter `a`
(`M 70 45 A 20 20 0 1 0 70 75`): radius 20, surd scale
`q = 400/900 - 1/4 = 7/36`, center `(70 - 30 * sqrt(7/36), 60)`. -/
def arcGeomLowerA : ArcGeom :=
  { x1 := 70, y1 := 45, x2 := 70, y2 := 75, r := 20, q := 7/36
  , cx := (70, -30), cy := (60, 0), sweep := false }

/-! ## Helper facts and sample states used by the theorems below -/

/-- Ink canvas of the mid-attempt sample session. -/
def inkMid : InkSurface :=
  { width := 900, height := 900, ops := [InkOp.stamp 10 20 (13 * 450 / 200)] }

/-- A mid-attempt session: second stroke active, one reset already
counted, a capture in progress, some ink laid. -/
def sessionMid : Session :=
  { activeStrokeIdx := 1, mistakes := 1, successTriggered := false
  , isDrawing := true, lastPos := some (30, 40), ink := some inkMid }

/-- A session about to complete the last stroke of a three-stroke
letter, with no mistakes. -/
def sessionAtLast : Session :=
  { activeStrokeIdx := 2, mistakes := 0, successTriggered := false
  , isDrawing := true, lastPos := some (60, 60)
  , ink := some { width := 450, height := 450, ops := [] } }

/-- A session whose letter has been fully completed. -/
def sessionDone : Session :=
  { activeStrokeIdx := 3, mistakes := 2, successTriggered := true
  , isDrawing := false, lastPos := none
  , ink := some { width := 450, height := 450, ops := [] } }

/-! ## C9: star rating and penalty aggregation -/

/-- Step function the claim describes for the final star rating,
written from the claim's words for comparison with `finishStars`. -/
def claimedStarSteps (penalties : ℕ) : ℕ :=
  if penalties = 0 then 3
  else if penalties ≤ 2 then 2
  else if penalties ≤ 5 then 1
  else 0

/-- C9 counterexample: in a two-level session whose only penalty falls
in the final level the total penalty count is 1, for which the claimed
step function awards 2 stars, yet the game awards 3 - `finishGame` runs
inside the timeout scheduled by the last level's success handler and
reads the closure-captured pre-increment `penalties`.  The same total
with the penalty in the first level does yield 2 stars, so the rating
is not a function of the total penalty count at all. -/
theorem final_level_penalty_ignored :
    runGame 0 [false, true] = 3 ∧
    foldPenalties 0 [false, true] = 1 ∧
    claimedStarSteps 1 = 2 ∧
    runGame 0 [true, false] = 2 ∧
    foldPenalties 0 [true, false] = 1 := by
  refine ⟨rfl, rfl, rfl, rfl, rfl⟩

/-- **C9 (amended).** The star computation of `finishGame` is exactly
the claimed decreasing step function (3 at zero penalties, 2 for one or
two, 1 for three to five, 0 above five), and each finished level
increments the penalties state by exactly 1 exactly when its success
callback reported a penalty, independent of how many resets happened
inside the level.  But the value the step function is applied to is not
the total: because `finishGame` reads the `penalties` its closure
captured before the final level's functional update, the rating is the
step function of the penalties accumulated in all levels before the
last, and a final-level penalty never affects the stars. -/
theorem star_rating_stale_closure :
    (∀ p : ℕ, finishStars p = claimedStarSteps p) ∧
    (∀ (p : ℕ) (b : Bool), handleLevelSuccessPenalties p b = if b then p + 1 else p) ∧
    (∀ (p : ℕ) (flags : List Bool) (b : Bool),
      runGame p (flags ++ [b]) = finishStars (foldPenalties p flags)) ∧
    (∀ (p : ℕ) (flags : List Bool), foldPenalties p flags = p + flags.count true) := by
  refine ⟨?_, fun p b => rfl, ?_, ?_⟩
  · intro p
    simp only [finishStars, claimedStarSteps]
    split_ifs <;> omega
  · intro p flags b
    induction flags generalizing p with
    | nil => rfl
    | cons f fs ih =>
        have hne : (fs ++ [b]).isEmpty = false := by simp
        simp only [List.cons_append, runGame, List.append_eq, hne, Bool.false_eq_true,
          if_false]
        exact ih (handleLevelSuccessPenalties p f)
  · intro p flags
    induction flags generalizing p with
    | nil => simp [foldPenalties]
    | cons f fs ih =>
        have h1 : foldPenalties p (f :: fs) =
            foldPenalties (handleLevelSuccessPenalties p f) fs := rfl
        rw [h1, ih]
        cases f
        · simp [handleLevelSuccessPenalties, List.count_cons]
        · simp [handleLevelSuccessPenalties, List.count_cons]
          omega

/-! ## C7: fresh-session state -/

/-- C7: a freshly mounted tracing surface starts with stroke index 0,
zero mistakes, success not triggered and no accumulated ink (the ink
canvas is not even allocated yet), and the letter-change effect restores
exactly that state, clearing the ink canvas if one is allocated. -/
theorem fresh_session_state :
    (initialSession.activeStrokeIdx = 0 ∧ initialSession.mistakes = 0 ∧
     initialSession.successTriggered = false ∧ initialSession.ink = none) ∧
    (∀ s : Session,
      (letterChange s).activeStrokeIdx = 0 ∧ (letterChange s).mistakes = 0 ∧
      (letterChange s).successTriggered = false ∧
      (letterChange s).ink = s.ink.map fun i => { i with ops := [] }) := by
  refine ⟨⟨rfl, rfl, rfl, rfl⟩, fun s => ⟨rfl, rfl, rfl, rfl⟩⟩

/-! ## C4: reset semantics and availability -/

/-- C4: a reset always increments the mistake counter by exactly 1,
returns the active stroke index to 0, clears the success flag and
discards all accumulated ink, whatever the prior progress was; and the
reset control is enabled exactly while the level is active and the
letter's success has not been triggered. -/
theorem reset_increments_and_rewinds :
    ∀ (isActive : Bool) (s : Session),
      (resetEnabled isActive s = true ↔ isActive = true ∧ s.successTriggered = false) ∧
      (resetEnabled isActive s = true →
        resetClick isActive s =
          { s with mistakes := s.mistakes + 1, activeStrokeIdx := 0
                 , successTriggered := false
                 , ink := s.ink.map fun i => { i with ops := [] } }) ∧
      (resetEnabled isActive s = false → resetClick isActive s = s) := by
  intro isActive s
  refine ⟨?_, ?_, ?_⟩
  · simp [resetEnabled]
  · intro hEn
    simp [resetClick, hEn, handleReset]
  · intro hEn
    simp [resetClick, hEn]

/-- Witness for C4: resetting the mid-attempt session with the level
active bumps the mistake counter to 2, rewinds the index and empties the
ink; with the level inactive the click is swallowed. -/
theorem reset_increments_and_rewinds_witness :
    resetClick true sessionMid =
      { sessionMid with mistakes := sessionMid.mistakes + 1, activeStrokeIdx := 0
                      , successTriggered := false
                      , ink := sessionMid.ink.map fun i => { i with ops := [] } } ∧
    resetClick false sessionMid = sessionMid := by
  refine ⟨(reset_increments_and_rewinds true sessionMid).2.1 (by rfl),
          (reset_increments_and_rewinds false sessionMid).2.2 (by rfl)⟩

/-! ## C5: resize keeps or clears ink depending on physical size -/

/-- C5: re-initializing the drawing surface with unchanged computed
physical dimensions leaves the ink surface exactly as it is, while a
changed physical dimension reallocates it blank at the new size. -/
theorem resize_ink_preservation (c : LetterPathConfig) (w h dpr : ℚ) (ink : InkSurface) :
    (ink.width = w * dpr ∧ ink.height = h * dpr →
      initCanvas (some c) w h dpr (some ink) = some ink) ∧
    (¬(ink.width = w * dpr ∧ ink.height = h * dpr) →
      initCanvas (some c) w h dpr (some ink) =
        some { width := w * dpr, height := h * dpr, ops := [] }) := by
  constructor
  · intro hEq
    simp [initCanvas, hEq]
  · intro hNe
    simp [initCanvas, hNe]

/-- Witness for C5: at container size 450 × 450 and device pixel ratio 2
the 900 × 900 ink canvas of the mid-attempt session survives a resize
event untouched, while a 300 × 300 one is reallocated blank. -/
theorem resize_ink_preservation_witness :
    initCanvas (some lettersConfigA) 450 450 2
        (some { width := 900, height := 900, ops := [InkOp.stamp 10 20 (13 * 450 / 200)] }) =
      some { width := 900, height := 900, ops := [InkOp.stamp 10 20 (13 * 450 / 200)] } ∧
    initCanvas (some lettersConfigA) 450 450 2
        (some { width := 300, height := 300, ops := [InkOp.stamp 10 20 (13 * 450 / 200)] }) =
      some { width := 450 * 2, height := 450 * 2, ops := [] } := by
  constructor
  · exact (resize_ink_preservation lettersConfigA 450 450 2 _).1 (by norm_num)
  · exact (resize_ink_preservation lettersConfigA 450 450 2 _).2 (by norm_num)

/-! ## C2: tolerance-band hit testing -/

lemma sVal_ofQ (q a : ℚ) : sVal q (sOfQ a) = (a : ℝ) := by
  simp [sVal, sOfQ]

lemma sVal_add (q : ℚ) (u v : ℚ × ℚ) : sVal q (sAdd u v) = sVal q u + sVal q v := by
  simp only [sVal, sAdd]
  push_cast
  ring

lemma sVal_sub (q : ℚ) (u v : ℚ × ℚ) : sVal q (sSub u v) = sVal q u - sVal q v := by
  simp only [sVal, sSub]
  push_cast
  ring

lemma sVal_mul (q : ℚ) (hq : 0 ≤ q) (u v : ℚ × ℚ) :
    sVal q (sMul q u v) = sVal q u * sVal q v := by
  have h2 : Real.sqrt (q : ℝ) * Real.sqrt (q : ℝ) = (q : ℝ) :=
    Real.mul_self_sqrt (by exact_mod_cast hq)
  simp only [sVal, sMul]
  push_cast
  linear_combination (-(u.2 : ℝ)) * (v.2 : ℝ) * h2

lemma sNonneg_iff (q : ℚ) (hq : 0 ≤ q) (u : ℚ × ℚ) :
    sNonneg q u = true ↔ 0 ≤ sVal q u := by
  have ht : (0 : ℝ) ≤ Real.sqrt (q : ℝ) := Real.sqrt_nonneg _
  have ht2 : Real.sqrt (q : ℝ) ^ 2 = (q : ℝ) :=
    Real.sq_sqrt (by exact_mod_cast hq)
  unfold sNonneg sVal
  split_ifs with hb
  · have hbR : (0 : ℝ) ≤ (u.2 : ℝ) := by exact_mod_cast hb
    have hbt : (0 : ℝ) ≤ (u.2 : ℝ) * Real.sqrt (q : ℝ) := mul_nonneg hbR ht
    simp only [Bool.or_eq_true, decide_eq_true_eq]
    constructor
    · rintro (ha | hsq)
      · have haR : (0 : ℝ) ≤ (u.1 : ℝ) := by exact_mod_cast ha
        linarith
      · have hsqR : ((u.1 : ℝ)) ^ 2 ≤ ((u.2 : ℝ)) ^ 2 * (q : ℝ) := by exact_mod_cast hsq
        by_contra hneg
        push_neg at hneg
        have h6 : (0 : ℝ) < (u.2 : ℝ) * Real.sqrt (q : ℝ) - (u.1 : ℝ) := by linarith
        have h7 : (0 : ℝ) < -((u.1 : ℝ) + (u.2 : ℝ) * Real.sqrt (q : ℝ)) := by linarith
        nlinarith [mul_pos h7 h6, ht2]
    · intro hpos
      by_cases ha : (0 : ℚ) ≤ u.1
      · exact Or.inl ha
      · refine Or.inr ?_
        have haR : (u.1 : ℝ) < 0 := by exact_mod_cast not_le.mp ha
        have h6 : (0 : ℝ) ≤ (u.2 : ℝ) * Real.sqrt (q : ℝ) - (u.1 : ℝ) := by linarith
        have h8 := mul_nonneg hpos h6
        have hsqR : ((u.1 : ℝ)) ^ 2 ≤ ((u.2 : ℝ)) ^ 2 * (q : ℝ) := by nlinarith [ht2]
        exact_mod_cast hsqR
  · have hbR : ((u.2 : ℝ)) < 0 := by exact_mod_cast not_le.mp hb
    have hnbt : (0 : ℝ) ≤ -(u.2 : ℝ) * Real.sqrt (q : ℝ) :=
      mul_nonneg (by linarith) ht
    simp only [Bool.and_eq_true, decide_eq_true_eq]
    constructor
    · rintro ⟨ha, hsq⟩
      have haR : (0 : ℝ) ≤ (u.1 : ℝ) := by exact_mod_cast ha
      have hsqR : ((u.2 : ℝ)) ^ 2 * (q : ℝ) ≤ ((u.1 : ℝ)) ^ 2 := by exact_mod_cast hsq
      by_contra hneg
      push_neg at hneg
      have h6 : (0 : ℝ) < -((u.2 : ℝ) * Real.sqrt (q : ℝ)) - (u.1 : ℝ) := by linarith
      have h7 : (0 : ℝ) ≤ -((u.2 : ℝ) * Real.sqrt (q : ℝ)) + (u.1 : ℝ) := by linarith
      nlinarith [mul_nonneg (le_of_lt h6) h7, ht2]
    · intro hpos
      have haR : (0 : ℝ) ≤ (u.1 : ℝ) := by linarith [hnbt]
      have h6 : (0 : ℝ) ≤ (u.1 : ℝ) - (u.2 : ℝ) * Real.sqrt (q : ℝ) := by linarith [hnbt]
      have h8 := mul_nonneg hpos h6
      have hsqR : ((u.2 : ℝ)) ^ 2 * (q : ℝ) ≤ ((u.1 : ℝ)) ^ 2 := by nlinarith [ht2]
      exact ⟨by exact_mod_cast haR, by exact_mod_cast hsqR⟩

lemma sNonneg_false_iff (q : ℚ) (hq : 0 ≤ q) (u : ℚ × ℚ) :
    sNonneg q u = false ↔ sVal q u < 0 := by
  rw [← Bool.not_eq_true, not_iff_comm, sNonneg_iff q hq, not_lt]

lemma sCross_val (q : ℚ) (hq : 0 ≤ q) (ux uy vx vy : ℚ × ℚ) :
    sVal q (sCross q ux uy vx vy) =
      sVal q ux * sVal q vy - sVal q uy * sVal q vx := by
  unfold sCross
  rw [sVal_sub, sVal_mul q hq, sVal_mul q hq]

/-- The angular-span test computed on surd pairs agrees with the same
sign conditions on the denoted real numbers. -/
lemma sector_bridge (q : ℚ) (hq : 0 ≤ q) (esx esy eex eey vx vy : ℚ × ℚ) :
    (if sNonneg q (sCross q esx esy eex eey) then
        sNonneg q (sCross q esx esy vx vy) && sNonneg q (sCross q vx vy eex eey)
      else
        sNonneg q (sCross q esx esy vx vy) || sNonneg q (sCross q vx vy eex eey)) = true ↔
      sectorCond (sVal q esx) (sVal q esy) (sVal q eex) (sVal q eey)
        (sVal q vx) (sVal q vy) := by
  unfold sectorCond
  by_cases h12 : sNonneg q (sCross q esx esy eex eey) = true
  · have h12R : 0 ≤ sVal q esx * sVal q eey - sVal q esy * sVal q eex := by
      rw [sNonneg_iff q hq, sCross_val q hq] at h12
      exact h12
    rw [if_pos h12, Bool.and_eq_true, sNonneg_iff q hq, sCross_val q hq,
        sNonneg_iff q hq, sCross_val q hq]
    constructor
    · rintro ⟨h1, h2⟩
      exact ⟨fun _ => ⟨h1, h2⟩, fun hlt => absurd h12R (not_le.mpr hlt)⟩
    · rintro ⟨himp, _⟩
      exact himp h12R
  · have h12R : sVal q esx * sVal q eey - sVal q esy * sVal q eex < 0 := by
      have hf := Bool.eq_false_iff.mpr h12
      rw [sNonneg_false_iff q hq, sCross_val q hq] at hf
      exact hf
    rw [if_neg h12, Bool.or_eq_true, sNonneg_iff q hq, sCross_val q hq,
        sNonneg_iff q hq, sCross_val q hq]
    constructor
    · intro hor
      exact ⟨fun hge => absurd h12R (not_lt.mpr hge), fun _ => hor⟩
    · rintro ⟨_, himp⟩
      exact himp h12R

/-- The surd-pair sector test agrees with the real sector condition at
the displaced point. -/
lemma arcSector_iff (A : ArcGeom) (hq : 0 ≤ A.q) (p : ℚ × ℚ) :
    arcSector A p = true ↔
      sectorR A ((p.1 : ℝ) - sVal A.q A.cx, (p.2 : ℝ) - sVal A.q A.cy) := by
  have hsub : ∀ (a : ℚ) (u : ℚ × ℚ), sVal A.q (sSub (sOfQ a) u) = (a : ℝ) - sVal A.q u := by
    intro a u
    rw [sVal_sub, sVal_ofQ]
  unfold arcSector sectorR arcVx arcVy
  cases hsw : A.sweep <;>
    simp only [hsw, Bool.false_eq_true, if_false, if_true] <;>
    rw [sector_bridge A.q hq] <;>
    simp only [hsub]

/-- The sector condition is preserved under scaling the direction by a
positive factor. -/
lemma sectorCond_smul (ex ey fx fy vx vy k : ℝ) (hk : 0 < k)
    (h : sectorCond ex ey fx fy vx vy) : sectorCond ex ey fx fy (k * vx) (k * vy) := by
  obtain ⟨h1, h2⟩ := h
  constructor
  · intro hge
    obtain ⟨ha, hb⟩ := h1 hge
    constructor <;> nlinarith
  · intro hlt
    rcases h2 hlt with ha | hb
    · left; nlinarith
    · right; nlinarith

/-- The span's starting boundary direction satisfies the sector
condition. -/
lemma sectorCond_self_start (ex ey fx fy : ℝ) : sectorCond ex ey fx fy ex ey :=
  ⟨fun hge => ⟨by linarith [show ex * ey - ey * ex = (0 : ℝ) from by ring], hge⟩,
   fun _ => Or.inl (by linarith [show ex * ey - ey * ex = (0 : ℝ) from by ring])⟩

/-- The span's ending boundary direction satisfies the sector
condition. -/
lemma sectorCond_self_end (ex ey fx fy : ℝ) : sectorCond ex ey fx fy fx fy :=
  ⟨fun hge => ⟨hge, by linarith [show fx * fy - fy * fx = (0 : ℝ) from by ring]⟩,
   fun _ => Or.inr (by linarith [show fx * fy - fy * fx = (0 : ℝ) from by ring])⟩

/-- The real sector condition is preserved under scaling the direction
by a positive factor. -/
lemma sectorR_smul (A : ArcGeom) (v : ℝ × ℝ) (k : ℝ) (hk : 0 < k)
    (h : sectorR A v) : sectorR A (k * v.1, k * v.2) := by
  unfold sectorR at h ⊢
  split_ifs at h ⊢ with hsw
  · exact sectorCond_smul _ _ _ _ _ _ k hk h
  · exact sectorCond_smul _ _ _ _ _ _ k hk h

/-- Both endpoint directions lie in the arc's angular span. -/
lemma sectorR_endpoints (A : ArcGeom) :
    sectorR A ((A.x1 : ℝ) - sVal A.q A.cx, (A.y1 : ℝ) - sVal A.q A.cy) ∧
    sectorR A ((A.x2 : ℝ) - sVal A.q A.cx, (A.y2 : ℝ) - sVal A.q A.cy) := by
  unfold sectorR
  split_ifs with hsw
  · exact ⟨sectorCond_self_start _ _ _ _, sectorCond_self_end _ _ _ _⟩
  · exact ⟨sectorCond_self_end _ _ _ _, sectorCond_self_start _ _ _ _⟩

/-- Validity facts recorded by a successful arc conversion: positive
radius, non-negative surd scale, and both endpoints on the support
circle (the SVG center construction is correct). -/
lemma arcOfPath_center (pd : PathDesc) (A : ArcGeom) (h : arcOfPath pd = some A) :
    0 < A.r ∧ 0 ≤ A.q ∧
    ((A.x1 : ℝ) - sVal A.q A.cx) ^ 2 + ((A.y1 : ℝ) - sVal A.q A.cy) ^ 2 = (A.r : ℝ) ^ 2 ∧
    ((A.x2 : ℝ) - sVal A.q A.cx) ^ 2 + ((A.y2 : ℝ) - sVal A.q A.cy) ^ 2 = (A.r : ℝ) ^ 2 := by
  cases pd with
  | line x1 y1 x2 y2 => exact absurd h (by simp [arcOfPath])
  | arc ax ay rx ry xrot fa fs bx bby =>
    unfold arcOfPath at h
    simp only [] at h
    split at h
    case isFalse => exact Option.noConfusion h
    case isTrue hcond =>
      obtain ⟨hrr, hrpos, hl2ne, hl2le⟩ := hcond
      have hA := (Option.some.inj h).symm
      subst hA
      have hl2pos : (0 : ℚ) < (bx - ax) ^ 2 + (bby - ay) ^ 2 :=
        lt_of_le_of_ne (by positivity) (Ne.symm hl2ne)
      have hq0 : (0 : ℚ) ≤ rx ^ 2 / ((bx - ax) ^ 2 + (bby - ay) ^ 2) - 1/4 := by
        rw [sub_nonneg, le_div_iff₀ hl2pos]
        linarith
      refine ⟨hrpos, hq0, ?_, ?_⟩
      all_goals
        simp only [sVal]
        set t : ℝ :=
          Real.sqrt ((rx ^ 2 / ((bx - ax) ^ 2 + (bby - ay) ^ 2) - 1/4 : ℚ) : ℝ) with htdef
        have ht2 : t ^ 2 = ((rx ^ 2 / ((bx - ax) ^ 2 + (bby - ay) ^ 2) - 1/4 : ℚ) : ℝ) :=
          Real.sq_sqrt (by exact_mod_cast hq0)
        have hl2neR : ((bx : ℝ) - ax) ^ 2 + ((bby : ℝ) - ay) ^ 2 ≠ 0 := by
          intro hzero
          apply hl2ne
          have : (((bx - ax) ^ 2 + (bby - ay) ^ 2 : ℚ) : ℝ) = 0 := by push_cast; linarith
          exact_mod_cast this
        have hLt2 : (((bx : ℝ) - ax) ^ 2 + ((bby : ℝ) - ay) ^ 2) * t ^ 2 =
            (rx : ℝ) ^ 2 - (((bx : ℝ) - ax) ^ 2 + ((bby : ℝ) - ay) ^ 2) / 4 := by
          rw [ht2]
          push_cast
          field_simp
          ring
        by_cases hfs : fa = fs <;>
          simp only [hfs, if_true, if_false, reduceIte] <;>
          push_cast <;>
          linear_combination hLt2

lemma arcNormSq_val (A : ArcGeom) (hq : 0 ≤ A.q) (p : ℚ × ℚ) :
    sVal A.q (arcNormSq A p) =
      ((p.1 : ℝ) - sVal A.q A.cx) ^ 2 + ((p.2 : ℝ) - sVal A.q A.cy) ^ 2 := by
  unfold arcNormSq arcVx arcVy
  rw [sVal_add, sVal_mul A.q hq, sVal_mul A.q hq, sVal_sub, sVal_sub, sVal_ofQ, sVal_ofQ]
  ring


/-- The clamped projection returned by `segClosest` lies on the segment. -/
lemma segClosest_onSegR (p : ℚ × ℚ) (s : Seg) :
    onSegR s (((segClosest p s).1 : ℝ), ((segClosest p s).2 : ℝ)) := by
  unfold segClosest onSegR
  simp only []
  split_ifs with h0 hdot hden
  · refine ⟨0, le_refl 0, zero_le_one, ?_, ?_⟩
    · show ((s.a.x : ℚ) : ℝ) = (s.a.x : ℝ) + 0 * ((s.b.x : ℝ) - (s.a.x : ℝ))
      ring
    · show ((s.a.y : ℚ) : ℝ) = (s.a.y : ℝ) + 0 * ((s.b.y : ℝ) - (s.a.y : ℝ))
      ring
  · refine ⟨0, le_refl 0, zero_le_one, ?_, ?_⟩
    · show ((s.a.x : ℚ) : ℝ) = (s.a.x : ℝ) + 0 * ((s.b.x : ℝ) - (s.a.x : ℝ))
      ring
    · show ((s.a.y : ℚ) : ℝ) = (s.a.y : ℝ) + 0 * ((s.b.y : ℝ) - (s.a.y : ℝ))
      ring
  · refine ⟨1, zero_le_one, le_refl 1, ?_, ?_⟩
    · show ((s.b.x : ℚ) : ℝ) = (s.a.x : ℝ) + 1 * ((s.b.x : ℝ) - (s.a.x : ℝ))
      ring
    · show ((s.b.y : ℚ) : ℝ) = (s.a.y : ℝ) + 1 * ((s.b.y : ℝ) - (s.a.y : ℝ))
      ring
  · have hdpos : 0 < (s.b.x - s.a.x) ^ 2 + (s.b.y - s.a.y) ^ 2 :=
      lt_of_le_of_ne (by positivity) (Ne.symm h0)
    have htnn : 0 ≤ ((p.1 - s.a.x) * (s.b.x - s.a.x) + (p.2 - s.a.y) * (s.b.y - s.a.y)) /
        ((s.b.x - s.a.x) ^ 2 + (s.b.y - s.a.y) ^ 2) :=
      div_nonneg (le_of_lt (lt_of_not_le hdot)) (le_of_lt hdpos)
    have htle : ((p.1 - s.a.x) * (s.b.x - s.a.x) + (p.2 - s.a.y) * (s.b.y - s.a.y)) /
        ((s.b.x - s.a.x) ^ 2 + (s.b.y - s.a.y) ^ 2) ≤ 1 := by
      rw [div_le_one hdpos]
      exact le_of_lt (lt_of_not_le hden)
    refine ⟨((((p.1 - s.a.x) * (s.b.x - s.a.x) + (p.2 - s.a.y) * (s.b.y - s.a.y)) /
        ((s.b.x - s.a.x) ^ 2 + (s.b.y - s.a.y) ^ 2) : ℚ) : ℝ), ?_, ?_, ?_, ?_⟩
    · exact_mod_cast htnn
    · exact_mod_cast htle
    · show ((s.a.x + ((p.1 - s.a.x) * (s.b.x - s.a.x) + (p.2 - s.a.y) * (s.b.y - s.a.y)) /
          ((s.b.x - s.a.x) ^ 2 + (s.b.y - s.a.y) ^ 2) * (s.b.x - s.a.x) : ℚ) : ℝ) = _
      push_cast
      ring
    · show ((s.a.y + ((p.1 - s.a.x) * (s.b.x - s.a.x) + (p.2 - s.a.y) * (s.b.y - s.a.y)) /
          ((s.b.x - s.a.x) ^ 2 + (s.b.y - s.a.y) ^ 2) * (s.b.y - s.a.y) : ℚ) : ℝ) = _
      push_cast
      ring

/-- `distSqToSeg` is the squared distance to the clamped projection. -/
lemma distSqToSeg_closest (p : ℚ × ℚ) (s : Seg) :
    distSqToSeg p s = distSq p (segClosest p s) := by
  unfold distSqToSeg segClosest distSq
  simp only []
  split_ifs with h0 hdot hden
  · ring
  · ring
  · ring
  · have hdpos : 0 < (s.b.x - s.a.x) ^ 2 + (s.b.y - s.a.y) ^ 2 :=
      lt_of_le_of_ne (by positivity) (Ne.symm h0)
    field_simp
    ring

set_option maxHeartbeats 1600000 in
/-- `distSqToSeg` bounds the squared distance to every point of the
segment from below. -/
lemma distSqToSeg_le (p : ℚ × ℚ) (s : Seg) (z : ℝ × ℝ) (hz : onSegR s z) :
    ((distSqToSeg p s : ℚ) : ℝ) ≤ ((p.1 : ℝ) - z.1) ^ 2 + ((p.2 : ℝ) - z.2) ^ 2 := by
  obtain ⟨t, ht0, ht1, hz1, hz2⟩ := hz
  rw [hz1, hz2]
  unfold distSqToSeg
  simp only []
  split_ifs with h0 hdot hden
  · have hdx : s.b.x - s.a.x = 0 := by
      nlinarith [sq_nonneg (s.b.x - s.a.x), sq_nonneg (s.b.y - s.a.y)]
    have hdy : s.b.y - s.a.y = 0 := by
      nlinarith [sq_nonneg (s.b.x - s.a.x), sq_nonneg (s.b.y - s.a.y)]
    have hbx : (s.b.x : ℝ) = (s.a.x : ℝ) := by exact_mod_cast sub_eq_zero.mp hdx
    have hby : (s.b.y : ℝ) = (s.a.y : ℝ) := by exact_mod_cast sub_eq_zero.mp hdy
    push_cast
    rw [hbx, hby]
    apply le_of_eq
    ring
  · have hdotR : ((p.1 : ℝ) - s.a.x) * ((s.b.x : ℝ) - s.a.x) +
        ((p.2 : ℝ) - s.a.y) * ((s.b.y : ℝ) - s.a.y) ≤ 0 := by
      exact_mod_cast hdot
    push_cast
    nlinarith [mul_nonneg ht0 (neg_nonneg.mpr hdotR),
      sq_nonneg (t * ((s.b.x : ℝ) - s.a.x)), sq_nonneg (t * ((s.b.y : ℝ) - s.a.y))]
  · have hdenR : ((s.b.x : ℝ) - s.a.x) ^ 2 + ((s.b.y : ℝ) - s.a.y) ^ 2 ≤
        ((p.1 : ℝ) - s.a.x) * ((s.b.x : ℝ) - s.a.x) +
        ((p.2 : ℝ) - s.a.y) * ((s.b.y : ℝ) - s.a.y) := by
      exact_mod_cast hden
    push_cast
    nlinarith [mul_nonneg (sub_nonneg.mpr ht1)
        (sub_nonneg.mpr hdenR),
      sq_nonneg ((1 - t) * ((s.b.x : ℝ) - s.a.x)),
      sq_nonneg ((1 - t) * ((s.b.y : ℝ) - s.a.y))]
  · have hdpos : 0 < (s.b.x - s.a.x) ^ 2 + (s.b.y - s.a.y) ^ 2 :=
      lt_of_le_of_ne (by positivity) (Ne.symm h0)
    have hdposR : (0 : ℝ) < ((s.b.x : ℝ) - s.a.x) ^ 2 + ((s.b.y : ℝ) - s.a.y) ^ 2 := by
      exact_mod_cast hdpos
    push_cast
    rw [div_le_iff₀ hdposR]
    nlinarith [sq_nonneg ((((p.1 : ℝ) - s.a.x) - t * ((s.b.x : ℝ) - s.a.x)) *
        ((s.b.x : ℝ) - s.a.x) +
      (((p.2 : ℝ) - s.a.y) - t * ((s.b.y : ℝ) - s.a.y)) * ((s.b.y : ℝ) - s.a.y))]

/-- Completeness of the arc hit test: a rational point lying exactly on
the arc is accepted. -/
lemma arcHit_complete (pd : PathDesc) (A : ArcGeom) (h : arcOfPath pd = some A)
    (p : ℚ × ℚ) (hon : onArcR A ((p.1 : ℝ), (p.2 : ℝ))) : arcHit A p = true := by
  obtain ⟨hr, hq, _, _⟩ := arcOfPath_center pd A h
  obtain ⟨hcirc, hsect⟩ := hon
  have hrR : (0 : ℝ) < (A.r : ℝ) := by exact_mod_cast hr
  have hn : sVal A.q (arcNormSq A p) = (A.r : ℝ) ^ 2 := by
    rw [arcNormSq_val A hq]
    exact hcirc
  have hband : arcBand A p = true := by
    unfold arcBand
    rw [Bool.and_eq_true]
    constructor
    · rw [sNonneg_iff A.q hq, sVal_sub, sVal_ofQ, hn]
      push_cast
      nlinarith
    · rw [Bool.or_eq_true]
      by_cases hr12 : A.r ≤ 12
      · left
        simp [hr12]
      · right
        rw [sNonneg_iff A.q hq, sVal_sub, sVal_ofQ, hn]
        have h12 : (12 : ℝ) < (A.r : ℝ) := by exact_mod_cast not_le.mp hr12
        push_cast
        nlinarith
  have hsec : arcSector A p = true := (arcSector_iff A hq p).mpr hsect
  unfold arcHit
  rw [hband, hsec]
  simp

set_option maxHeartbeats 1600000 in
/-- Soundness of the arc hit test: an accepted rational point is within
distance 12 of some point of the arc. -/
lemma arcHit_sound (pd : PathDesc) (A : ArcGeom) (h : arcOfPath pd = some A)
    (p : ℚ × ℚ) (hacc : arcHit A p = true) :
    ∃ z : ℝ × ℝ, onArcR A z ∧
      ((p.1 : ℝ) - z.1) ^ 2 + ((p.2 : ℝ) - z.2) ^ 2 ≤ 144 := by
  obtain ⟨hr, hq, hend1, hend2⟩ := arcOfPath_center pd A h
  have hrR : (0 : ℝ) < (A.r : ℝ) := by exact_mod_cast hr
  unfold arcHit at hacc
  rw [Bool.or_eq_true, Bool.or_eq_true, Bool.and_eq_true] at hacc
  rcases hacc with (⟨hband, hsect⟩ | hball1) | hball2
  · set cX := sVal A.q A.cx with hcXdef
    set cY := sVal A.q A.cy with hcYdef
    set v1 : ℝ := (p.1 : ℝ) - cX with hv1def
    set v2 : ℝ := (p.2 : ℝ) - cY with hv2def
    have hp1 : (p.1 : ℝ) = cX + v1 := by rw [hv1def]; ring
    have hp2 : (p.2 : ℝ) = cY + v2 := by rw [hv2def]; ring
    have hnv : sVal A.q (arcNormSq A p) = v1 ^ 2 + v2 ^ 2 := arcNormSq_val A hq p
    have hsectR : sectorR A (v1, v2) := (arcSector_iff A hq p).mp hsect
    unfold arcBand at hband
    rw [Bool.and_eq_true] at hband
    obtain ⟨hup, hlo⟩ := hband
    rw [sNonneg_iff A.q hq, sVal_sub, sVal_ofQ, hnv] at hup
    have hupR : v1 ^ 2 + v2 ^ 2 ≤ ((A.r : ℝ) + 12) ^ 2 := by push_cast at hup; linarith
    by_cases hnv0 : v1 ^ 2 + v2 ^ 2 = 0
    · have hr12 : (A.r : ℝ) ≤ 12 := by
        rw [Bool.or_eq_true] at hlo
        rcases hlo with h12 | hlo2
        · exact_mod_cast of_decide_eq_true h12
        · rw [sNonneg_iff A.q hq, sVal_sub, sVal_ofQ, hnv] at hlo2
          push_cast at hlo2
          nlinarith [sq_nonneg ((A.r : ℝ) - 12)]
      refine ⟨((A.x1 : ℝ), (A.y1 : ℝ)), ⟨hend1, (sectorR_endpoints A).1⟩, ?_⟩
      have hv1 : v1 = 0 := by nlinarith [sq_nonneg v1, sq_nonneg v2]
      have hv2 : v2 = 0 := by nlinarith [sq_nonneg v1, sq_nonneg v2]
      have hdist : ((p.1 : ℝ) - (A.x1 : ℝ)) ^ 2 + ((p.2 : ℝ) - (A.y1 : ℝ)) ^ 2 =
          (A.r : ℝ) ^ 2 := by
        rw [hp1, hp2, hv1, hv2]
        linear_combination hend1
      rw [hdist]
      nlinarith
    · have hnvpos : 0 < v1 ^ 2 + v2 ^ 2 :=
        lt_of_le_of_ne (by positivity) (Ne.symm hnv0)
      set ρ : ℝ := Real.sqrt (v1 ^ 2 + v2 ^ 2) with hρdef
      have hρpos : 0 < ρ := Real.sqrt_pos.mpr hnvpos
      have hρ2 : ρ ^ 2 = v1 ^ 2 + v2 ^ 2 := Real.sq_sqrt (le_of_lt hnvpos)
      set k : ℝ := (A.r : ℝ) / ρ with hkdef
      have hkpos : 0 < k := div_pos hrR hρpos
      have hρk : ρ * k = (A.r : ℝ) := by
        rw [hkdef]
        field_simp
      refine ⟨(cX + k * v1, cY + k * v2), ⟨?_, ?_⟩, ?_⟩
      · show (cX + k * v1 - cX) ^ 2 + (cY + k * v2 - cY) ^ 2 = (A.r : ℝ) ^ 2
        have hsimp : (cX + k * v1 - cX) ^ 2 + (cY + k * v2 - cY) ^ 2 =
            k ^ 2 * (v1 ^ 2 + v2 ^ 2) := by ring
        rw [hsimp, ← hρ2]
        linear_combination (ρ * k + (A.r : ℝ)) * hρk
      · show sectorR A (cX + k * v1 - cX, cY + k * v2 - cY)
        have hsc := sectorR_smul A (v1, v2) k hkpos hsectR
        have he1 : cX + k * v1 - cX = k * v1 := by ring
        have he2 : cY + k * v2 - cY = k * v2 := by ring
        rw [he1, he2]
        exact hsc
      · show ((p.1 : ℝ) - (cX + k * v1)) ^ 2 + ((p.2 : ℝ) - (cY + k * v2)) ^ 2 ≤ 144
        have hdist : ((p.1 : ℝ) - (cX + k * v1)) ^ 2 + ((p.2 : ℝ) - (cY + k * v2)) ^ 2 =
            (ρ - (A.r : ℝ)) ^ 2 := by
          rw [hp1, hp2]
          have hexp : (cX + v1 - (cX + k * v1)) ^ 2 + (cY + v2 - (cY + k * v2)) ^ 2 =
              (1 - k) ^ 2 * (v1 ^ 2 + v2 ^ 2) := by ring
          rw [hexp, ← hρ2]
          linear_combination (ρ * k + (A.r : ℝ) - 2 * ρ) * hρk
        rw [hdist]
        have hρub : ρ ≤ (A.r : ℝ) + 12 := by
          have hsq : ρ ^ 2 ≤ ((A.r : ℝ) + 12) ^ 2 := by rw [hρ2]; exact hupR
          nlinarith
        rw [Bool.or_eq_true] at hlo
        rcases hlo with h12 | hlo2
        · have hr12 : (A.r : ℝ) ≤ 12 := by exact_mod_cast of_decide_eq_true h12
          nlinarith
        · rw [sNonneg_iff A.q hq, sVal_sub, sVal_ofQ, hnv] at hlo2
          push_cast at hlo2
          have hlb : (A.r : ℝ) - 12 ≤ ρ := by nlinarith
          nlinarith
  · refine ⟨((A.x1 : ℝ), (A.y1 : ℝ)), ⟨hend1, (sectorR_endpoints A).1⟩, ?_⟩
    have hb := of_decide_eq_true hball1
    show ((p.1 : ℝ) - (A.x1 : ℝ)) ^ 2 + ((p.2 : ℝ) - (A.y1 : ℝ)) ^ 2 ≤ 144
    exact_mod_cast hb
  · refine ⟨((A.x2 : ℝ), (A.y2 : ℝ)), ⟨hend2, (sectorR_endpoints A).2⟩, ?_⟩
    have hb := of_decide_eq_true hball2
    show ((p.1 : ℝ) - (A.x2 : ℝ)) ^ 2 + ((p.2 : ℝ) - (A.y2 : ℝ)) ^ 2 ≤ 144
    exact_mod_cast hb

/-- Completeness of `hitPathN`: a rational point lying exactly on the
path is accepted. -/
lemma hitPathN_complete (pd : PathDesc) (p : ℚ × ℚ)
    (hon : onPathR pd ((p.1 : ℝ), (p.2 : ℝ))) : hitPathN pd p = true := by
  unfold hitPathN
  unfold onPathR at hon
  cases hseg : segOfPath pd with
  | some seg =>
      rw [hseg] at hon
      simp only [] at hon ⊢
      have hle := distSqToSeg_le p seg ((p.1 : ℝ), (p.2 : ℝ)) hon
      norm_num at hle
      have hQ : distSqToSeg p seg ≤ 0 := by exact_mod_cast hle
      exact decide_eq_true (le_trans hQ (by norm_num))
  | none =>
      rw [hseg] at hon
      simp only [] at hon ⊢
      cases harc : arcOfPath pd with
      | some A =>
          rw [harc] at hon
          simp only [] at hon ⊢
          exact arcHit_complete pd A harc p hon
      | none =>
          rw [harc] at hon
          simp only [] at hon

/-- Soundness of `hitPathN`: an accepted rational point is within
distance 12 of some point of the path. -/
lemma hitPathN_sound (pd : PathDesc) (p : ℚ × ℚ) (hacc : hitPathN pd p = true) :
    withinOfPathR 12 pd ((p.1 : ℝ), (p.2 : ℝ)) := by
  unfold hitPathN at hacc
  unfold withinOfPathR
  cases hseg : segOfPath pd with
  | some seg =>
      rw [hseg] at hacc
      simp only [] at hacc
      have hQ : distSqToSeg p seg ≤ 144 := of_decide_eq_true hacc
      refine ⟨(((segClosest p seg).1 : ℝ), ((segClosest p seg).2 : ℝ)), ?_, ?_⟩
      · unfold onPathR
        rw [hseg]
        simp only []
        exact segClosest_onSegR p seg
      · have hQ2 : distSq p (segClosest p seg) ≤ 144 := distSqToSeg_closest p seg ▸ hQ
        unfold distSq at hQ2
        have hR : ((p.1 : ℝ) - ((segClosest p seg).1 : ℝ)) ^ 2 +
            ((p.2 : ℝ) - ((segClosest p seg).2 : ℝ)) ^ 2 ≤ 144 := by
          exact_mod_cast hQ2
        norm_num
        exact hR
  | none =>
      rw [hseg] at hacc
      simp only [] at hacc
      cases harc : arcOfPath pd with
      | some A =>
          rw [harc] at hacc
          simp only [] at hacc
          obtain ⟨z, hz, hd⟩ := arcHit_sound pd A harc p hacc
          refine ⟨z, ?_, ?_⟩
          · unfold onPathR
            rw [hseg, harc]
            simp only []
            exact hz
          · norm_num
            exact hd
      | none =>
          rw [harc] at hacc
          simp only [] at hacc
          exact absurd hacc (by simp)

/-- The scale transform cancels the device-pixel ratio: the hit test of
`draw` is the user-space band test of the point mapped to the
normalized 0-100 letter space. -/
lemma hitTest_normalized (w h dpr : ℚ) (hw : w ≠ 0) (hh : h ≠ 0) (hd : dpr ≠ 0)
    (pd : PathDesc) (x y : ℚ) :
    hitTest w h dpr pd x y = hitPathN pd (100 * x / w, 100 * y / h) := by
  unfold hitTest
  have e1 : x * dpr / (w * dpr / 100) = 100 * x / w := by
    field_simp
    ring
  have e2 : y * dpr / (h * dpr / 100) = 100 * y / h := by
    field_simp
    ring
  rw [e1, e2]

/-- The arc descriptor of letter `a`'s first stroke converts to the
center form `arcGeomLowerA`. -/
lemma arcOfPath_lowerA :
    arcOfPath (PathDesc.arc 70 45 20 20 0 true false 70 75) = some arcGeomLowerA := by
  unfold arcOfPath
  simp only []
  rw [if_pos]
  · unfold arcGeomLowerA
    simp only [Option.some.injEq, ArcGeom.mk.injEq, Prod.mk.injEq]
    norm_num
  · norm_num

/-- **C2.** During a pointer-move capture each interpolated sample is
tested, in the letter's normalized 0-100 space, against the tolerance
band of half-width 12 logical units (half of `lineWidth` 24; the DPR
scale factors cancel) around the active stroke's path only: a sample
lying exactly on the path - line segment or circular arc - is kept and
stamped on the ink canvas, a sample at distance more than 12 from every
point of the path is rejected, and a sample is kept exactly when the
active stroke's own hit test accepts it, so points on a prior or future
stroke's path but off the active one are never accepted. -/
theorem hit_test_tolerance_band (w h dpr : ℚ) (hw : 0 < w) (hh : 0 < h)
    (hdpr : 0 < dpr) (pd : PathDesc) (pts : List (ℚ × ℚ)) (p : ℚ × ℚ) :
    (p ∈ pts →
      onPathR pd (((100 * p.1 / w : ℚ) : ℝ), ((100 * p.2 / h : ℚ) : ℝ)) →
      p ∈ inkedSamples w h dpr pd pts) ∧
    (¬ withinOfPathR 12 pd (((100 * p.1 / w : ℚ) : ℝ), ((100 * p.2 / h : ℚ) : ℝ)) →
      p ∉ inkedSamples w h dpr pd pts) ∧
    (p ∈ inkedSamples w h dpr pd pts →
      p ∈ pts ∧ hitTest w h dpr pd p.1 p.2 = true) ∧
    (∀ (st : Stroke) (ink : InkSurface) (s : Session) (steps : ℕ) (cur : ℚ × ℚ),
      (drawUpdate w h dpr steps cur st ink s).ink =
        some { ink with
          ops := ink.ops ++ (inkedSamples w h dpr st.path (samplePoints
            (s.lastPos.getD cur).1 (s.lastPos.getD cur).2 cur.1 cur.2 steps)).map
            (fun q : ℚ × ℚ => InkOp.stamp q.1 q.2 (13 * w / 200)) }) := by
  have hmemo : ∀ q : ℚ × ℚ, q ∈ inkedSamples w h dpr pd pts ↔
      q ∈ pts ∧ hitTest w h dpr pd q.1 q.2 = true := by
    intro q
    simp [inkedSamples, List.mem_filter]
  refine ⟨?_, ?_, fun hm => (hmemo p).mp hm, fun st ink s steps cur => rfl⟩
  · intro hp hon
    rw [hmemo p]
    refine ⟨hp, ?_⟩
    rw [hitTest_normalized w h dpr (ne_of_gt hw) (ne_of_gt hh) (ne_of_gt hdpr)]
    exact hitPathN_complete pd (100 * p.1 / w, 100 * p.2 / h) hon
  · intro hnw hm
    obtain ⟨-, hhit⟩ := (hmemo p).mp hm
    rw [hitTest_normalized w h dpr (ne_of_gt hw) (ne_of_gt hh) (ne_of_gt hdpr)] at hhit
    exact hnw (hitPathN_sound pd (100 * p.1 / w, 100 * p.2 / h) hhit)

/-- Concrete instantiation of the C2 theorem on a 200 by 200 canvas at
device-pixel ratio 2: the on-path samples (100, 30) (normalized
(50, 15), on the line stroke `M 50 15 L 20 85` of letter `A`) and
(140, 90) (normalized (70, 45), on the arc stroke
`M 70 45 A 20 20 0 1 0 70 75` of letter `a`) are stamped, while
(140, 120) (normalized (70, 60), farther than 12 from every point of
the line stroke) is rejected. -/
theorem hit_test_tolerance_band_witness :
    (100, 30) ∈ inkedSamples 200 200 2 (PathDesc.line 50 15 20 85) [(100, 30)] ∧
    (140, 90) ∈ inkedSamples 200 200 2 (PathDesc.arc 70 45 20 20 0 true false 70 75)
      [(140, 90)] ∧
    (140, 120) ∉ inkedSamples 200 200 2 (PathDesc.line 50 15 20 85) [(140, 120)] := by
  have H1 := hit_test_tolerance_band 200 200 2 (by norm_num) (by norm_num) (by norm_num)
    (PathDesc.line 50 15 20 85) [(100, 30)] (100, 30)
  have H2 := hit_test_tolerance_band 200 200 2 (by norm_num) (by norm_num) (by norm_num)
    (PathDesc.arc 70 45 20 20 0 true false 70 75) [(140, 90)] (140, 90)
  have H3 := hit_test_tolerance_band 200 200 2 (by norm_num) (by norm_num) (by norm_num)
    (PathDesc.line 50 15 20 85) [(140, 120)] (140, 120)
  refine ⟨H1.1 (by simp) ?_, H2.1 (by simp) ?_, H3.2.1 ?_⟩
  · show onSegR ⟨⟨50, 15⟩, ⟨20, 85⟩⟩
      (((100 * (100 : ℚ) / 200 : ℚ) : ℝ), ((100 * (30 : ℚ) / 200 : ℚ) : ℝ))
    refine ⟨0, le_refl 0, zero_le_one, ?_, ?_⟩
    · push_cast
      norm_num
    · push_cast
      norm_num
  · have hpt1 : ((100 * (140 : ℚ) / 200 : ℚ) : ℝ) = 70 := by norm_num
    have hpt2 : ((100 * (90 : ℚ) / 200 : ℚ) : ℝ) = 45 := by norm_num
    unfold onPathR
    simp only [segOfPath]
    rw [arcOfPath_lowerA]
    simp only []
    rw [hpt1, hpt2]
    have hs : Real.sqrt (7 / 36) ^ 2 = 7 / 36 := Real.sq_sqrt (by norm_num)
    have hspos : 0 < Real.sqrt ((7 : ℝ) / 36) := Real.sqrt_pos.mpr (by norm_num)
    constructor
    · show ((70 : ℝ) - sVal arcGeomLowerA.q arcGeomLowerA.cx) ^ 2 +
        ((45 : ℝ) - sVal arcGeomLowerA.q arcGeomLowerA.cy) ^ 2 =
        ((arcGeomLowerA.r : ℚ) : ℝ) ^ 2
      simp only [arcGeomLowerA, sVal]
      push_cast
      linear_combination (900 : ℝ) * hs
    · have hsweep : arcGeomLowerA.sweep = false := rfl
      unfold sectorR
      rw [hsweep]
      simp only [Bool.false_eq_true, if_false]
      simp only [arcGeomLowerA, sVal]
      push_cast
      constructor
      · intro hcon
        exfalso
        nlinarith [hspos, hcon]
      · intro hneg
        right
        apply le_of_eq
        ring
  · rintro ⟨z, hz, hd⟩
    have hz' : onSegR ⟨⟨50, 15⟩, ⟨20, 85⟩⟩ z := hz
    obtain ⟨t, ht0, ht1, hz1, hz2⟩ := hz'
    rw [hz1, hz2] at hd
    push_cast at hd
    norm_num at hd
    nlinarith [sq_nonneg (116 * t - 51), ht0, ht1]

/-! ## C8: interpolated sampling of pointer moves -/

lemma distSq_nonneg (p q : ℚ × ℚ) : 0 ≤ distSq p q := by
  unfold distSq; positivity

lemma distSq_eq_zero_iff (p q : ℚ × ℚ) : distSq p q = 0 ↔ p = q := by
  unfold distSq
  constructor
  · intro h
    have h1 : (p.1 - q.1) ^ 2 = 0 := by
      nlinarith [sq_nonneg (p.1 - q.1), sq_nonneg (p.2 - q.2)]
    have h2 : (p.2 - q.2) ^ 2 = 0 := by
      nlinarith [sq_nonneg (p.1 - q.1), sq_nonneg (p.2 - q.2)]
    have e1 : p.1 = q.1 := sub_eq_zero.mp (pow_eq_zero_iff two_ne_zero |>.mp h1)
    have e2 : p.2 = q.2 := sub_eq_zero.mp (pow_eq_zero_iff two_ne_zero |>.mp h2)
    exact Prod.ext e1 e2
  · rintro rfl; ring

/-- C8: when `n` is the source's step count `ceil(dist / 2)` for the
move, the tested samples are the `n + 1` evenly spaced points between
the previous raw point (the first sample) and the current raw point (the
last), consecutive samples are at most 2 logical pixels apart (squared
distance at most 4), and every move yields at least one tested sample —
there is no minimum-movement filtering (a zero-distance move still
samples the current point). -/
theorem move_interpolation_sampling (lx ly cx cy : ℚ) (n : ℕ)
    (hn : stepsRel (distSq (lx, ly) (cx, cy)) n) :
    (samplePoints lx ly cx cy n).length = n + 1 ∧
    (samplePoints lx ly cx cy n).head? = some (lx, ly) ∧
    (samplePoints lx ly cx cy n).getLast? = some (cx, cy) ∧
    (∀ i : ℕ, i ≤ n → (samplePoints lx ly cx cy n)[i]? =
      some (lerp lx cx (if n = 0 then 1 else (i : ℚ) / n),
            lerp ly cy (if n = 0 then 1 else (i : ℚ) / n))) ∧
    (∀ i : ℕ, i + 1 ≤ n →
      distSq (lerp lx cx ((i : ℚ) / n), lerp ly cy ((i : ℚ) / n))
             (lerp lx cx (((i : ℚ) + 1) / n), lerp ly cy (((i : ℚ) + 1) / n)) ≤ 4) := by
  have hlen : (samplePoints lx ly cx cy n).length = n + 1 := by
    simp only [samplePoints, List.length_map, List.length_range]
  have hget : ∀ i : ℕ, i ≤ n → (samplePoints lx ly cx cy n)[i]? =
      some (lerp lx cx (if n = 0 then 1 else (i : ℚ) / n),
            lerp ly cy (if n = 0 then 1 else (i : ℚ) / n)) := by
    intro i hi
    have hilt : i < n + 1 := by omega
    simp only [samplePoints, List.getElem?_map, List.getElem?_range, hilt, if_pos]
    rfl
  refine ⟨hlen, ?_, ?_, hget, ?_⟩
  · rw [List.head?_eq_getElem?]
    rcases Nat.eq_zero_or_pos n with hz | hpos
    · subst hz
      have hdz : distSq (lx, ly) (cx, cy) = 0 :=
        le_antisymm (by simpa using hn.1) (distSq_nonneg _ _)
      have heq := distSq_eq_zero_iff (lx, ly) (cx, cy) |>.mp hdz
      have hx : lx = cx := congrArg Prod.fst heq
      have hy : ly = cy := congrArg Prod.snd heq
      rw [hget 0 (le_refl 0)]
      simp [lerp, hx, hy]
    · rw [hget 0 (by omega)]
      have hnz : n ≠ 0 := by omega
      simp [hnz, lerp]
  · rw [List.getLast?_eq_getElem?, hlen]
    have hn1 : n + 1 - 1 = n := by omega
    rw [hn1, hget n (le_refl n)]
    rcases Nat.eq_zero_or_pos n with hz | hpos
    · subst hz; simp [lerp]
    · have hnz : n ≠ 0 := by omega
      have hne : (n : ℚ) ≠ 0 := by exact_mod_cast hnz
      simp [lerp, hnz, div_self hne]
  · intro i hi
    have hne : (n : ℚ) ≠ 0 := by
      have hnz : n ≠ 0 := by omega
      exact_mod_cast hnz
    have hkey : ∀ a b : ℚ,
        lerp a b ((i : ℚ) / n) - lerp a b (((i : ℚ) + 1) / n) = (a - b) / n := by
      intro a b
      unfold lerp
      field_simp
      ring
    have hpos2 : (0 : ℚ) < (n : ℚ) ^ 2 := by positivity
    have hD : (lx - cx) ^ 2 + (ly - cy) ^ 2 ≤ 4 * (n : ℚ) ^ 2 := by
      have hq := hn.1
      unfold distSq at hq
      simpa using hq
    unfold distSq
    rw [hkey lx cx, hkey ly cy, div_pow, div_pow, div_add_div_same,
        div_le_iff₀ hpos2]
    linarith

/-- Witness for C8: moving from (0, 0) to (3, 4) has distance 5, hence
step count 3, and yields 4 samples running from the previous to the
current point. -/
theorem move_interpolation_sampling_witness :
    (samplePoints 0 0 3 4 3).length = 3 + 1 ∧
    (samplePoints 0 0 3 4 3).head? = some (0, 0) ∧
    (samplePoints 0 0 3 4 3).getLast? = some (3, 4) := by
  have H := move_interpolation_sampling 0 0 3 4 3 (by norm_num [stepsRel, distSq])
  exact ⟨H.1, H.2.1, H.2.2.1⟩

/-! ## Field lemmas for the stroke-completion and draw transitions -/

lemma completeStroke_guard (c : LetterPathConfig) (s : Session)
    (h : c.strokes.length ≤ s.activeStrokeIdx) : completeStroke c s = (s, none) := by
  unfold completeStroke
  rw [if_pos h]

lemma completeStroke_fst_idx (c : LetterPathConfig) (s : Session) :
    (completeStroke c s).1.activeStrokeIdx =
      if c.strokes.length ≤ s.activeStrokeIdx then s.activeStrokeIdx
      else s.activeStrokeIdx + 1 := by
  unfold completeStroke
  split_ifs <;> rfl

lemma completeStroke_fst_isDrawing (c : LetterPathConfig) (s : Session) :
    (completeStroke c s).1.isDrawing =
      if c.strokes.length ≤ s.activeStrokeIdx then s.isDrawing else false := by
  unfold completeStroke
  split_ifs <;> rfl

lemma completeStroke_fst_mistakes (c : LetterPathConfig) (s : Session) :
    (completeStroke c s).1.mistakes = s.mistakes := by
  unfold completeStroke
  split_ifs <;> rfl

lemma completeStroke_fst_success (c : LetterPathConfig) (s : Session) :
    (completeStroke c s).1.successTriggered =
      if c.strokes.length ≤ s.activeStrokeIdx then s.successTriggered
      else if c.strokes.length ≤ s.activeStrokeIdx + 1 then true
      else s.successTriggered := by
  unfold completeStroke
  split_ifs <;> rfl

lemma completeStroke_snd (c : LetterPathConfig) (s : Session) :
    (completeStroke c s).2 =
      if c.strokes.length ≤ s.activeStrokeIdx then none
      else if c.strokes.length ≤ s.activeStrokeIdx + 1 then some (decide (0 < s.mistakes))
      else none := by
  unfold completeStroke
  split_ifs <;> rfl

lemma drawUpdate_idx (w h dpr : ℚ) (steps : ℕ) (cur : ℚ × ℚ) (st : Stroke)
    (ink : InkSurface) (s : Session) :
    (drawUpdate w h dpr steps cur st ink s).activeStrokeIdx = s.activeStrokeIdx := rfl

lemma drawUpdate_isDrawing (w h dpr : ℚ) (steps : ℕ) (cur : ℚ × ℚ) (st : Stroke)
    (ink : InkSurface) (s : Session) :
    (drawUpdate w h dpr steps cur st ink s).isDrawing = s.isDrawing := rfl

lemma drawUpdate_mistakes (w h dpr : ℚ) (steps : ℕ) (cur : ℚ × ℚ) (st : Stroke)
    (ink : InkSurface) (s : Session) :
    (drawUpdate w h dpr steps cur st ink s).mistakes = s.mistakes := rfl

lemma drawUpdate_success (w h dpr : ℚ) (steps : ℕ) (cur : ℚ × ℚ) (st : Stroke)
    (ink : InkSurface) (s : Session) :
    (drawUpdate w h dpr steps cur st ink s).successTriggered = s.successTriggered := rfl

/-- Reduction of `draw` when the capture guard passes and the letter
geometry and ink canvas are present. -/
lemma draw_active_eq (c : LetterPathConfig) (w h dpr : ℚ) (steps : ℕ) (cur : ℚ × ℚ)
    (s : Session) (ink : InkSurface) (st : Stroke)
    (hdrw : s.isDrawing = true) (hsuc : s.successTriggered = false)
    (hink : s.ink = some ink) (hst : c.strokes[s.activeStrokeIdx]? = some st) :
    draw (some c) true w h dpr steps cur s =
      (if nearEnd w h cur st then .ok (completeStroke c (drawUpdate w h dpr steps cur st ink s))
       else .ok (drawUpdate w h dpr steps cur st ink s, none)) := by
  unfold draw
  rw [hdrw, hsuc, hink]
  simp [hst]

/-- A successful indexed lookup bounds the index. -/
lemma getElem?_some_lt {α : Type} (l : List α) (i : ℕ) (a : α)
    (h : l[i]? = some a) : i < l.length := by
  by_contra hge
  push_neg at hge
  rw [List.getElem?_eq_none hge] at h
  exact Option.noConfusion h

/-! ## C3: end-proximity stroke completion -/

/-- C3: during an active capture on a present stroke, a pointer move
whose raw current position is strictly within 8% of the surface width of
the active stroke's declared end point completes the stroke — the
capture halts and the active index advances by one — no matter how many
interpolation steps the move has or how much ink was laid, while a move
at least that far away never completes the stroke on that move (the
index and the capture are left as they were). -/
theorem end_proximity_completes (c : LetterPathConfig) (w h dpr : ℚ) (steps : ℕ)
    (cur : ℚ × ℚ) (s : Session) (ink : InkSurface) (st : Stroke)
    (hdrw : s.isDrawing = true) (hsuc : s.successTriggered = false)
    (hink : s.ink = some ink) (hst : c.strokes[s.activeStrokeIdx]? = some st) :
    (distSq cur (st.endPt.x / 100 * w, st.endPt.y / 100 * h) < (8 * w / 100) ^ 2 →
      ∃ s1 r, draw (some c) true w h dpr steps cur s = .ok (s1, r) ∧
        s1.activeStrokeIdx = s.activeStrokeIdx + 1 ∧ s1.isDrawing = false) ∧
    ((8 * w / 100) ^ 2 ≤ distSq cur (st.endPt.x / 100 * w, st.endPt.y / 100 * h) →
      ∃ s1, draw (some c) true w h dpr steps cur s = .ok (s1, none) ∧
        s1.activeStrokeIdx = s.activeStrokeIdx ∧ s1.isDrawing = true) := by
  have hde := draw_active_eq c w h dpr steps cur s ink st hdrw hsuc hink hst
  have hidx : s.activeStrokeIdx < c.strokes.length := getElem?_some_lt _ _ _ hst
  constructor
  · intro hlt
    have hne : nearEnd w h cur st = true := by
      simp only [nearEnd, decide_eq_true_eq]
      exact hlt
    rw [hde, if_pos hne]
    refine ⟨(completeStroke c (drawUpdate w h dpr steps cur st ink s)).1,
            (completeStroke c (drawUpdate w h dpr steps cur st ink s)).2, rfl, ?_, ?_⟩
    · rw [completeStroke_fst_idx, drawUpdate_idx, if_neg (not_le.mpr hidx)]
    · rw [completeStroke_fst_isDrawing, drawUpdate_idx, if_neg (not_le.mpr hidx)]
  · intro hge
    have hne : nearEnd w h cur st = false := by
      simp only [nearEnd, decide_eq_false_iff_not, not_lt]
      exact hge
    rw [hde, hne]
    refine ⟨drawUpdate w h dpr steps cur st ink s, by simp, drawUpdate_idx w h dpr steps cur st ink s, ?_⟩
    rw [drawUpdate_isDrawing, hdrw]

/-- Witness for C3 on the second stroke of letter `A` (end point
(80, 85)) at a 100 × 100 surface: reaching (80, 85) itself completes the
stroke even with arbitrary step count 5 and untraced path, while a move
to the far-away start point (50, 15) leaves the stroke open. -/
theorem end_proximity_completes_witness :
    (∃ s1 r, draw (some lettersConfigA) true 100 100 1 5 (80, 85) sessionMid = .ok (s1, r) ∧
      s1.activeStrokeIdx = sessionMid.activeStrokeIdx + 1 ∧ s1.isDrawing = false) ∧
    (∃ s1, draw (some lettersConfigA) true 100 100 1 5 (50, 15) sessionMid = .ok (s1, none) ∧
      s1.activeStrokeIdx = sessionMid.activeStrokeIdx ∧ s1.isDrawing = true) := by
  constructor
  · exact (end_proximity_completes lettersConfigA 100 100 1 5 (80, 85) sessionMid inkMid
      { path := .line 50 15 80 85, start := ⟨50, 15⟩, endPt := ⟨80, 85⟩, arrowRot := 65 }
      rfl rfl rfl rfl).1 (by norm_num [distSq])
  · exact (end_proximity_completes lettersConfigA 100 100 1 5 (50, 15) sessionMid inkMid
      { path := .line 50 15 80 85, start := ⟨50, 15⟩, endPt := ⟨80, 85⟩, arrowRot := 65 }
      rfl rfl rfl rfl).2 (by norm_num [distSq])

/-! ## Case analyses of the event handlers -/

/-- Exhaustive description of a non-crashing `draw` call: either the
guards made it a no-op, or the state advanced by `drawUpdate`, followed
by `completeStroke` exactly when the current point was near the active
stroke's end. -/
lemma draw_ok_cases (cfg : Option LetterPathConfig) (a : Bool) (w h dpr : ℚ)
    (steps : ℕ) (cur : ℚ × ℚ) (s s1 : Session) (r : Option Bool)
    (heq : draw cfg a w h dpr steps cur s = .ok (s1, r)) :
    (s1 = s ∧ r = none) ∨
    ∃ c ink st, cfg = some c ∧ s.ink = some ink ∧ c.strokes[s.activeStrokeIdx]? = some st ∧
      ((nearEnd w h cur st = true ∧
        (s1, r) = completeStroke c (drawUpdate w h dpr steps cur st ink s)) ∨
       (nearEnd w h cur st = false ∧
        s1 = drawUpdate w h dpr steps cur st ink s ∧ r = none)) := by
  unfold draw at heq
  split at heq
  · left
    simp only [Except.ok.injEq, Prod.mk.injEq] at heq
    exact ⟨heq.1.symm, heq.2.symm⟩
  · cases hink : s.ink with
    | none =>
      rw [hink] at heq
      simp only [] at heq
      left
      simp only [Except.ok.injEq, Prod.mk.injEq] at heq
      exact ⟨heq.1.symm, heq.2.symm⟩
    | some ink =>
      rw [hink] at heq
      cases cfg with
      | none => simp at heq
      | some c =>
        simp only [] at heq
        cases hst : c.strokes[s.activeStrokeIdx]? with
        | none =>
          rw [hst] at heq
          simp at heq
        | some st =>
          rw [hst] at heq
          simp only [] at heq
          by_cases hne : nearEnd w h cur st = true
          · rw [if_pos hne] at heq
            right
            exact ⟨c, ink, st, rfl, rfl, hst, Or.inl ⟨hne, (Except.ok.inj heq).symm⟩⟩
          · rw [if_neg hne] at heq
            right
            have h2 := Except.ok.inj heq
            refine ⟨c, ink, st, rfl, rfl, hst, Or.inr ⟨by simpa using hne, ?_, ?_⟩⟩
            · exact (congrArg Prod.fst h2).symm
            · exact (congrArg Prod.snd h2).symm

/-- Exhaustive description of a non-crashing `startDrawing` call: either
a guard made it a no-op, or the capture started and the result is that
of `draw` on the capturing state. -/
lemma startDrawing_ok_cases (cfg : Option LetterPathConfig) (a : Bool) (w h dpr : ℚ)
    (cur : ℚ × ℚ) (s s1 : Session) (r : Option Bool)
    (heq : startDrawing cfg a w h dpr cur s = .ok (s1, r)) :
    (s1 = s ∧ r = none) ∨
    ∃ c, cfg = some c ∧ s.activeStrokeIdx < c.strokes.length ∧
      draw cfg a w h dpr 0 cur { s with isDrawing := true, lastPos := some cur } =
        .ok (s1, r) := by
  unfold startDrawing at heq
  split at heq
  · left
    simp only [Except.ok.injEq, Prod.mk.injEq] at heq
    exact ⟨heq.1.symm, heq.2.symm⟩
  · split at heq
    · left
      simp only [Except.ok.injEq, Prod.mk.injEq] at heq
      exact ⟨heq.1.symm, heq.2.symm⟩
    · cases cfg with
      | none => simp at heq
      | some c =>
        simp only [] at heq
        split at heq
        · left
          simp only [Except.ok.injEq, Prod.mk.injEq] at heq
          exact ⟨heq.1.symm, heq.2.symm⟩
        · rename_i hlen
          right
          exact ⟨c, rfl, not_le.mp hlen, heq⟩

/-- A stroke completion that emits a callback argument has set the
success flag, kept the mistake counter, and passed `mistakes > 0`. -/
lemma completeStroke_some (c : LetterPathConfig) (s s1 : Session) (b : Bool)
    (heq : completeStroke c s = (s1, some b)) :
    s1.successTriggered = true ∧ s1.mistakes = s.mistakes ∧ b = decide (0 < s.mistakes) := by
  have hsnd : (completeStroke c s).2 = some b := by rw [heq]
  have hfst : s1 = (completeStroke c s).1 := by rw [heq]
  rw [completeStroke_snd] at hsnd
  by_cases h1 : c.strokes.length ≤ s.activeStrokeIdx
  · rw [if_pos h1] at hsnd
    exact absurd hsnd (by simp)
  · rw [if_neg h1] at hsnd
    by_cases h2 : c.strokes.length ≤ s.activeStrokeIdx + 1
    · rw [if_pos h2] at hsnd
      refine ⟨?_, ?_, (Option.some.inj hsnd).symm⟩
      · rw [hfst, completeStroke_fst_success, if_neg h1, if_pos h2]
      · rw [hfst, completeStroke_fst_mistakes]
    · rw [if_neg h2] at hsnd
      exact absurd hsnd (by simp)

/-- A step that emits a callback argument has set the success flag,
kept the mistake counter, and passed `mistakes > 0`. -/
lemma step_some_cases (c : LetterPathConfig) (e : Ev) (s s1 : Session) (b : Bool)
    (heq : step (some c) e s = .ok (s1, some b)) :
    s1.successTriggered = true ∧ s1.mistakes = s.mistakes ∧ b = decide (0 < s.mistakes) := by
  cases e with
  | pointerDown a w h dpr pos =>
    simp only [step] at heq
    rcases startDrawing_ok_cases _ _ _ _ _ _ _ _ _ heq with ⟨_, hr⟩ | ⟨c2, hcfg, hlt, hdraw⟩
    · exact Option.noConfusion hr
    · rcases draw_ok_cases _ _ _ _ _ _ _ _ _ _ hdraw with ⟨_, hr⟩ | ⟨c3, ink, st, hc3, hink, hst, hcase⟩
      · exact Option.noConfusion hr
      · rcases hcase with ⟨_, hpair⟩ | ⟨_, _, hr⟩
        · have hcs := completeStroke_some _ _ _ _ hpair.symm
          exact ⟨hcs.1, hcs.2.1, hcs.2.2⟩
        · exact Option.noConfusion hr
  | pointerMove a w h dpr n pos =>
    simp only [step] at heq
    rcases draw_ok_cases _ _ _ _ _ _ _ _ _ _ heq with ⟨_, hr⟩ | ⟨c3, ink, st, hc3, hink, hst, hcase⟩
    · exact Option.noConfusion hr
    · rcases hcase with ⟨_, hpair⟩ | ⟨_, _, hr⟩
      · have hcs := completeStroke_some _ _ _ _ hpair.symm
        exact ⟨hcs.1, hcs.2.1, hcs.2.2⟩
      · exact Option.noConfusion hr
  | pointerUp => simp [step] at heq
  | pointerLeave => simp [step] at heq
  | resetClick a => simp [step] at heq
  | letterChange => simp [step] at heq
  | resize w h dpr => simp [step] at heq

/-- After the success flag is set, every event other than a letter
change is a non-emitting step that keeps the flag set. -/
lemma step_after_success (c : LetterPathConfig) (e : Ev) (s : Session)
    (hs : s.successTriggered = true) (hne : e ≠ Ev.letterChange) :
    ∃ s1, step (some c) e s = .ok (s1, none) ∧ s1.successTriggered = true := by
  cases e with
  | pointerDown a w h dpr pos =>
    refine ⟨s, ?_, hs⟩
    unfold step startDrawing
    cases a <;> simp [hs]
  | pointerMove a w h dpr n pos =>
    refine ⟨s, ?_, hs⟩
    unfold step draw
    simp [hs]
  | pointerUp => exact ⟨stopDrawing s, rfl, hs⟩
  | pointerLeave => exact ⟨stopDrawing s, rfl, hs⟩
  | resetClick a =>
    refine ⟨resetClick a s, rfl, ?_⟩
    unfold resetClick resetEnabled
    simp [hs]
  | letterChange => exact absurd rfl hne
  | resize w h dpr => exact ⟨_, rfl, hs⟩

/-! ## C1: the success callback fires exactly once -/

/-- C1: completing the last remaining stroke fires the success callback
with argument `mistakes > 0` (the penalty flag at the moment of
completion) and sets the success flag in the same transition; any step
that emits a callback argument has done exactly that; and once the flag
is set, every further pointer event, reset click or resize for the same
letter is a non-emitting step that keeps the flag set — the callback can
never fire a second time for that letter. -/
theorem success_callback_exactly_once (c : LetterPathConfig) :
    (∀ s : Session, s.activeStrokeIdx + 1 = c.strokes.length →
      completeStroke c s =
        ({ s with isDrawing := false, lastPos := none, ink := inkFillStroke c s
                , activeStrokeIdx := s.activeStrokeIdx + 1, successTriggered := true }
        , some (decide (0 < s.mistakes)))) ∧
    (∀ (e : Ev) (s s1 : Session) (b : Bool),
      step (some c) e s = .ok (s1, some b) →
      s1.successTriggered = true ∧ s1.mistakes = s.mistakes ∧
        b = decide (0 < s1.mistakes)) ∧
    (∀ (e : Ev) (s : Session), s.successTriggered = true → e ≠ Ev.letterChange →
      ∃ s1, step (some c) e s = .ok (s1, none) ∧ s1.successTriggered = true) := by
  refine ⟨?_, ?_, step_after_success c⟩
  · intro s hlast
    unfold completeStroke
    rw [if_neg (by omega), if_pos (by omega)]
  · intro e s s1 b heq
    have hcs := step_some_cases c e s s1 b heq
    refine ⟨hcs.1, hcs.2.1, ?_⟩
    rw [hcs.2.1]
    exact hcs.2.2

/-- Witness for C1: completing the third stroke of letter `A` from a
clean two-strokes-done session fires the callback with `false` (no
mistakes) and sets the success flag; afterwards (state `sessionDone`) a
pointer-up is a non-emitting step that keeps the flag set. -/
theorem success_callback_exactly_once_witness :
    completeStroke lettersConfigA sessionAtLast =
      ({ sessionAtLast with isDrawing := false, lastPos := none
                          , ink := inkFillStroke lettersConfigA sessionAtLast
                          , activeStrokeIdx := sessionAtLast.activeStrokeIdx + 1
                          , successTriggered := true }
      , some (decide (0 < sessionAtLast.mistakes))) ∧
    (∃ s1, step (some lettersConfigA) Ev.pointerUp sessionDone = .ok (s1, none) ∧
      s1.successTriggered = true) := by
  constructor
  · exact (success_callback_exactly_once lettersConfigA).1 sessionAtLast rfl
  · exact (success_callback_exactly_once lettersConfigA).2.2 Ev.pointerUp sessionDone rfl
      (fun hcon => Ev.noConfusion hcon)

/-- Every non-crashing step leaves the active stroke index unchanged,
rewinds it to 0, or advances it by exactly 1 from an in-range index. -/
lemma step_idx_cases (c : LetterPathConfig) (e : Ev) (s s1 : Session) (r : Option Bool)
    (heq : step (some c) e s = .ok (s1, r)) :
    s1.activeStrokeIdx = s.activeStrokeIdx ∨ s1.activeStrokeIdx = 0 ∨
    (s.activeStrokeIdx < c.strokes.length ∧
     s1.activeStrokeIdx = s.activeStrokeIdx + 1) := by
  cases e with
  | pointerDown a w h dpr pos =>
    simp only [step] at heq
    rcases startDrawing_ok_cases _ _ _ _ _ _ _ _ _ heq with ⟨hs1, _⟩ | ⟨c2, hcfg, hlt, hdraw⟩
    · left; rw [hs1]
    · rcases draw_ok_cases _ _ _ _ _ _ _ _ _ _ hdraw with
        ⟨hs1, _⟩ | ⟨c3, ink, st, hc3, hink, hst, hcase⟩
      · left; rw [hs1]
      · have hc3e : c3 = c := (Option.some.inj hc3).symm
        subst hc3e
        rcases hcase with ⟨_, hpair⟩ | ⟨_, hs1, _⟩
        · have hfst : s1 = (completeStroke c3 (drawUpdate w h dpr 0 pos st ink
            { s with isDrawing := true, lastPos := some pos })).1 :=
            congrArg Prod.fst hpair
          have hidx := getElem?_some_lt _ _ _ hst
          right; right
          refine ⟨hidx, ?_⟩
          rw [hfst, completeStroke_fst_idx, drawUpdate_idx]
          split_ifs with hcond
          · exact absurd hcond (not_le.mpr hidx)
          · rfl
        · left; rw [hs1, drawUpdate_idx]
  | pointerMove a w h dpr n pos =>
    simp only [step] at heq
    rcases draw_ok_cases _ _ _ _ _ _ _ _ _ _ heq with
      ⟨hs1, _⟩ | ⟨c3, ink, st, hc3, hink, hst, hcase⟩
    · left; rw [hs1]
    · have hc3e : c3 = c := (Option.some.inj hc3).symm
      subst hc3e
      rcases hcase with ⟨_, hpair⟩ | ⟨_, hs1, _⟩
      · have hfst : s1 = (completeStroke c3 (drawUpdate w h dpr n pos st ink s)).1 :=
          congrArg Prod.fst hpair
        have hidx := getElem?_some_lt _ _ _ hst
        right; right
        refine ⟨hidx, ?_⟩
        rw [hfst, completeStroke_fst_idx, drawUpdate_idx]
        split_ifs with hcond
        · exact absurd hcond (not_le.mpr hidx)
        · rfl
      · left; rw [hs1, drawUpdate_idx]
  | pointerUp =>
    simp only [step, Except.ok.injEq, Prod.mk.injEq] at heq
    left; rw [← heq.1]; rfl
  | pointerLeave =>
    simp only [step, Except.ok.injEq, Prod.mk.injEq] at heq
    left; rw [← heq.1]; rfl
  | resetClick a =>
    simp only [step, Except.ok.injEq, Prod.mk.injEq] at heq
    have hs1 : resetClick a s = s1 := heq.1
    unfold resetClick at hs1
    by_cases hEn : resetEnabled a s = true
    · rw [if_pos hEn] at hs1
      right; left; rw [← hs1]; rfl
    · rw [if_neg hEn] at hs1
      left; rw [← hs1]
  | letterChange =>
    simp only [step, Except.ok.injEq, Prod.mk.injEq] at heq
    right; left; rw [← heq.1]; rfl
  | resize w h dpr =>
    simp only [step, Except.ok.injEq, Prod.mk.injEq] at heq
    left; rw [← heq.1]

/-! ## C10: the stroke-index invariant -/

/-- C10: in every session state reachable by non-crashing events the
active stroke index stays between 0 and the stroke count; mounting and
reset put it at 0; a stroke completion from an in-range index advances
it by exactly 1 and is a complete no-op once the index has reached the
stroke count; and no step changes the index in any other way. -/
theorem stroke_index_invariant (c : LetterPathConfig) :
    (∀ s : Session, Reachable (some c) s → s.activeStrokeIdx ≤ c.strokes.length) ∧
    initialSession.activeStrokeIdx = 0 ∧
    (∀ s : Session, (handleReset s).activeStrokeIdx = 0) ∧
    (∀ s : Session, s.activeStrokeIdx < c.strokes.length →
      (completeStroke c s).1.activeStrokeIdx = s.activeStrokeIdx + 1) ∧
    (∀ s : Session, c.strokes.length ≤ s.activeStrokeIdx →
      completeStroke c s = (s, none)) ∧
    (∀ (e : Ev) (s s1 : Session) (r : Option Bool), step (some c) e s = .ok (s1, r) →
      s1.activeStrokeIdx = s.activeStrokeIdx ∨ s1.activeStrokeIdx = 0 ∨
      s1.activeStrokeIdx = s.activeStrokeIdx + 1) := by
  refine ⟨?_, rfl, fun s => rfl, ?_, completeStroke_guard c, ?_⟩
  · intro s hr
    induction hr with
    | init => simp [initialSession]
    | next e s0 s1 r hre hstep ih =>
      rcases step_idx_cases c e s0 s1 r hstep with h1 | h1 | ⟨h1, h2⟩ <;> omega
  · intro s hlt
    rw [completeStroke_fst_idx, if_neg (not_le.mpr hlt)]
  · intro e s s1 r heq
    rcases step_idx_cases c e s s1 r heq with h1 | h1 | ⟨_, h1⟩
    · exact Or.inl h1
    · exact Or.inr (Or.inl h1)
    · exact Or.inr (Or.inr h1)

/-- Witness for C10: the fresh session is reachable and in range for
letter `A`; completing from index 1 advances to 2; completing from the
exhausted index 3 of the finished session is a no-op. -/
theorem stroke_index_invariant_witness :
    initialSession.activeStrokeIdx ≤ lettersConfigA.strokes.length ∧
    (completeStroke lettersConfigA sessionMid).1.activeStrokeIdx =
      sessionMid.activeStrokeIdx + 1 ∧
    completeStroke lettersConfigA sessionDone = (sessionDone, none) := by
  refine ⟨(stroke_index_invariant lettersConfigA).1 initialSession Reachable.init,
          (stroke_index_invariant lettersConfigA).2.2.2.1 sessionMid (by decide),
          (stroke_index_invariant lettersConfigA).2.2.2.2.1 sessionDone (by decide)⟩

/-! ## C6: behaviour on a letter key missing from the geometry table -/

/-- Counterexample to C6 as stated: for the unknown letter key `B` the
pointer-down handler is not a non-crashing no-op — with the level active
and a fresh session it dereferences the missing config
(`letterConfig.strokes.length`) and raises a `TypeError`, and the
hand-guide style computation does the same. -/
theorem unknown_letter_pointer_down_throws :
    LETTER_PATHS "B" = none ∧
    startDrawing (LETTER_PATHS "B") true 450 450 2 (10, 10) initialSession =
      .error JsErr.typeError ∧
    getHandStyle (LETTER_PATHS "B") initialSession = .error JsErr.typeError := by
  refine ⟨by decide, ?_, ?_⟩
  · rfl
  · rfl

/-- C6 amended: for a letter key with no geometry entry, the canvas
initialization and the render pass do fail safe — they are non-crashing
no-ops that decline to touch the surface or render guides — but the
pointer-down handler (whenever the level is active and success is not
yet triggered) and the hand-guide style computation dereference the
missing config and raise a `TypeError` instead of being no-ops. -/
theorem unknown_letter_guard_gaps (letter : String)
    (hcfg : LETTER_PATHS letter = none) :
    (∀ (w h dpr : ℚ) (ink : Option InkSurface),
      initCanvas (LETTER_PATHS letter) w h dpr ink = ink) ∧
    (∀ s : Session, renderFrame (LETTER_PATHS letter) s = none) ∧
    (∀ (w h dpr : ℚ) (pos : ℚ × ℚ) (s : Session), s.successTriggered = false →
      startDrawing (LETTER_PATHS letter) true w h dpr pos s = .error JsErr.typeError) ∧
    (∀ s : Session, getHandStyle (LETTER_PATHS letter) s = .error JsErr.typeError) := by
  rw [hcfg]
  refine ⟨fun w h dpr ink => rfl, fun s => rfl, ?_, fun s => rfl⟩
  intro w h dpr pos s hsuc
  unfold startDrawing
  simp [hsuc]

/-- Witness for C6 (amended): at the unknown letter key `B`, a resize
leaves the ink canvas alone, the render pass declines to draw, and a
pointer-down on a fresh session with the level active raises the
`TypeError`. -/
theorem unknown_letter_guard_gaps_witness :
    initCanvas (LETTER_PATHS "B") 450 450 2 (some inkMid) = some inkMid ∧
    renderFrame (LETTER_PATHS "B") initialSession = none ∧
    startDrawing (LETTER_PATHS "B") true 450 450 2 (10, 10) initialSession =
      .error JsErr.typeError := by
  refine ⟨(unknown_letter_guard_gaps "B" (by decide)).1 450 450 2 (some inkMid),
          (unknown_letter_guard_gaps "B" (by decide)).2.1 initialSession,
          (unknown_letter_guard_gaps "B" (by decide)).2.2.1 450 450 2 (10, 10)
            initialSession rfl⟩
